import Mathlib

/-!
# Verification of the oscilloscope signal-analysis core

This file gives a shallow embedding, in Lean 4, of the signal-analysis
functions of the repository (the TypeScript module containing `fft`,
`applyWindow`, `parseOscilloscopeCsv`, `calculateStats`,
`performFFTAnalysis` and `calculatePowerQuality`), together with theorems
settling the frozen claims about that code.

Modelling conventions (stated once, used throughout):

* JavaScript IEEE-754 doubles are idealised as exact real numbers `ℝ`
  (exact rationals `ℚ` in the purely string-processing parser, which
  never takes square roots or cosines).  Floating-point rounding is out
  of scope; all stated equalities are equalities of the idealised exact
  semantics.
* Division by zero: Lean's convention `x / 0 = 0` differs from
  JavaScript (`NaN`/`±Infinity`).  Wherever a claim depends on the
  distinction (the power-quality THD/percentage divisions by the
  fundamental magnitude), the division is modelled by `jsDiv`, which
  returns `none` for a zero denominator (the non-finite JS results `NaN`
  and `±Infinity` are collapsed to `none`).  Divisions whose denominator
  is provably nonzero on the executed paths are modelled with `/`.
* JS arrays indexed in bounds are modelled with `List.getD _ _ 0`.  The
  one read the analysed paths can perform out of bounds —
  `phases[peakIndex]` when the half-spectrum is empty — is modelled with
  `getElem?`, whose `none` stands for the JS `undefined` and the `NaN`s
  that arithmetic on it produces downstream.
-/

open List Real Complex

/-! ## Even/odd de-interleaving

The source `fft` splits its input into the even-indexed and odd-indexed
subsequences (a single loop pushing by index parity); `evens`/`odds`
compute the same two lists. -/

def evens {α : Type} : List α → List α
  | [] => []
  | [a] => [a]
  | a :: _ :: t => a :: evens t

def odds {α : Type} (l : List α) : List α := evens l.tail

theorem odds_nil {α : Type} : odds ([] : List α) = [] := rfl

theorem odds_cons {α : Type} (a : α) (t : List α) : odds (a :: t) = evens t := rfl

theorem evens_cons {α : Type} (a : α) (t : List α) : evens (a :: t) = a :: odds t := by
  cases t <;> rfl

theorem evens_length_and_odds_length {α : Type} :
    ∀ l : List α, (evens l).length = (l.length + 1) / 2 ∧ (odds l).length = l.length / 2 := by
  intro l
  induction l with
  | nil => constructor <;> simp [evens, odds]
  | cons a t ih =>
    rw [evens_cons, odds_cons]
    refine ⟨?_, ?_⟩
    · simp only [length_cons, ih.2]; omega
    · simp only [length_cons, ih.1]

theorem evens_length {α : Type} (l : List α) : (evens l).length = (l.length + 1) / 2 :=
  (evens_length_and_odds_length l).1

theorem odds_length {α : Type} (l : List α) : (odds l).length = l.length / 2 :=
  (evens_length_and_odds_length l).2

theorem evens_getD_and_odds_getD {α : Type} :
    ∀ (l : List α) (i : ℕ) (d : α),
      (evens l).getD i d = l.getD (2 * i) d ∧ (odds l).getD i d = l.getD (2 * i + 1) d := by
  intro l
  induction l with
  | nil => intro i d; cases i <;> simp [evens, odds]
  | cons a t ih =>
    intro i d
    rw [evens_cons, odds_cons]
    constructor
    · cases i with
      | zero => rfl
      | succ j =>
        rw [show 2 * (j + 1) = 2 * j + 1 + 1 by ring]
        simpa using (ih j d).2
    · rw [show 2 * i + 1 = 2 * i + 1 by rfl]
      simpa using (ih i d).1

theorem evens_getD {α : Type} (l : List α) (i : ℕ) (d : α) :
    (evens l).getD i d = l.getD (2 * i) d := (evens_getD_and_odds_getD l i d).1

theorem odds_getD {α : Type} (l : List α) (i : ℕ) (d : α) :
    (odds l).getD i d = l.getD (2 * i + 1) d := (evens_getD_and_odds_getD l i d).2

/-! ## Powers of two and the `(n & (n-1)) !== 0` test -/

/-- `Math.pow(2, Math.ceil(Math.log2(n)))`: the least power of two `≥ n`
(for `n ≥ 1`). -/
def nextPow2 (n : ℕ) : ℕ := 2 ^ Nat.clog 2 n

theorem le_nextPow2 (n : ℕ) : n ≤ nextPow2 n := Nat.le_pow_clog one_lt_two n

theorem nextPow2_pow (k : ℕ) : nextPow2 (2 ^ k) = 2 ^ k := by
  unfold nextPow2
  rw [Nat.clog_pow 2 k one_lt_two]

/-- The source tests power-of-two-ness with the bit trick
`(n & (n - 1)) !== 0`; this characterises the test. -/
theorem land_pred_eq_zero_iff {n : ℕ} (hn : 1 ≤ n) :
    n &&& (n - 1) = 0 ↔ ∃ k, n = 2 ^ k := by
  constructor
  · intro h
    refine ⟨Nat.log2 n, ?_⟩
    by_contra hne
    have hle : 2 ^ Nat.log2 n ≤ n := Nat.log2_self_le (by omega)
    have hlt : n < 2 ^ (Nat.log2 n + 1) := Nat.lt_log2_self
    set k := Nat.log2 n with hk
    have hgt : 2 ^ k < n := lt_of_le_of_ne hle (fun e => hne e.symm)
    have h1 : Nat.testBit n k = true := by
      rw [Nat.testBit_to_div_mod]
      have : n / 2 ^ k = 1 := by
        rw [pow_succ] at hlt
        exact Nat.div_eq_of_lt_le (by omega) (by omega)
      simp [this]
    have h2 : Nat.testBit (n - 1) k = true := by
      rw [Nat.testBit_to_div_mod]
      have : (n - 1) / 2 ^ k = 1 := by
        rw [pow_succ] at hlt
        exact Nat.div_eq_of_lt_le (by omega) (by omega)
      simp [this]
    have := congrArg (fun m => Nat.testBit m k) h
    simp only [Nat.testBit_land, Nat.zero_testBit, h1, h2] at this
    simp at this
  · rintro ⟨k, rfl⟩
    refine Nat.eq_of_testBit_eq fun i => ?_
    simp only [Nat.testBit_land, Nat.zero_testBit]
    rcases eq_or_ne k i with rfl | hne
    · have : Nat.testBit (2 ^ k - 1) k = false := by
        rw [Nat.testBit_to_div_mod]
        have : (2 ^ k - 1) / 2 ^ k = 0 := Nat.div_eq_of_lt (by omega)
        simp [this]
      simp [this]
    · simp [Nat.testBit_two_pow_of_ne hne]

theorem land_pred_pow2 (k : ℕ) : 2 ^ k &&& (2 ^ k - 1) = 0 :=
  (land_pred_eq_zero_iff (Nat.one_le_two_pow)).2 ⟨k, rfl⟩

/-! ## The FFT

Direct transcription of the source `fft`.  The source carries the result
as two parallel arrays `real[]`/`imag[]`; we carry one list of `ℂ`
(entry `k` is `⟨real[k], imag[k]⟩`).  The butterfly
`tReal = cos·oRe − sin·oIm`, `tImag = sin·oRe + cos·oIm` is exactly the
complex product `⟨cos θ, sin θ⟩ * ⟨oRe, oIm⟩`, and the loop filling
`out[k]`/`out[k+half]` for `k < half` is rendered as a map over
`range n` that cases on `k < n/2`. -/

/-- The twiddle factor `⟨cos angle, sin angle⟩` with
`angle = (-2 * Math.PI * k) / n`, as in the source. -/
noncomputable def twiddle (n k : ℕ) : ℂ :=
  ⟨Real.cos ((-2 * π * k) / n), Real.sin ((-2 * π * k) / n)⟩

noncomputable def fft (data : List ℝ) : List ℂ :=
  if _h1 : data.length ≤ 1 then data.map (fun x => Complex.ofReal x)
  else if _h2 : data.length &&& (data.length - 1) ≠ 0 then
    -- Zero-pad to nearest power of 2 and recurse.
    fft (data ++ List.replicate (nextPow2 data.length - data.length) 0)
  else
    let e := fft (evens data)
    let o := fft (odds data)
    (List.range data.length).map fun k =>
      if k < data.length / 2 then
        e.getD k 0 + twiddle data.length k * o.getD k 0
      else
        e.getD (k - data.length / 2) 0 -
          twiddle data.length (k - data.length / 2) * o.getD (k - data.length / 2) 0
termination_by 2 * nextPow2 data.length - data.length
decreasing_by
  · -- padding branch: the padded list is a power of two strictly longer than `data`
    have hlen : (data ++ List.replicate (nextPow2 data.length - data.length) 0).length
        = nextPow2 data.length := by
      simp [le_nextPow2 data.length]
    have hle := le_nextPow2 data.length
    have hne : data.length ≠ nextPow2 data.length := by
      intro he
      apply _h2
      rw [he]
      unfold nextPow2
      exact land_pred_pow2 _
    have hfix : nextPow2 (nextPow2 data.length) = nextPow2 data.length := nextPow2_pow _
    rw [hlen, hfix]
    omega
  · -- evens branch
    have hpow : ∃ k, data.length = 2 ^ k :=
      (land_pred_eq_zero_iff (by omega)).1 (by omega)
    obtain ⟨k, hk⟩ := hpow
    have hk1 : 1 ≤ k := by
      rcases Nat.eq_zero_or_pos k with rfl | h
      · simp [hk] at _h1
      · exact h
    have hev : (evens data).length = 2 ^ (k - 1) := by
      rw [evens_length, hk]
      have : 2 ^ k = 2 * 2 ^ (k - 1) := by
        conv_lhs => rw [show k = 1 + (k - 1) by omega]
        rw [pow_add, pow_one]
      omega
    rw [hev, nextPow2_pow, hk, nextPow2_pow]
    have : 2 ^ (k - 1) < 2 ^ k := Nat.pow_lt_pow_right one_lt_two (by omega)
    have h1 : 1 ≤ 2 ^ (k - 1) := Nat.one_le_two_pow
    omega
  · -- odds branch
    have hpow : ∃ k, data.length = 2 ^ k :=
      (land_pred_eq_zero_iff (by omega)).1 (by omega)
    obtain ⟨k, hk⟩ := hpow
    have hk1 : 1 ≤ k := by
      rcases Nat.eq_zero_or_pos k with rfl | h
      · simp [hk] at _h1
      · exact h
    have hod : (odds data).length = 2 ^ (k - 1) := by
      rw [odds_length, hk]
      have : 2 ^ k = 2 * 2 ^ (k - 1) := by
        conv_lhs => rw [show k = 1 + (k - 1) by omega]
        rw [pow_add, pow_one]
      omega
    rw [hod, nextPow2_pow, hk, nextPow2_pow]
    have : 2 ^ (k - 1) < 2 ^ k := Nat.pow_lt_pow_right one_lt_two (by omega)
    have h1 : 1 ≤ 2 ^ (k - 1) := Nat.one_le_two_pow
    omega

/-! ## The reference DFT (refinement target for the FFT claim)

`dftSpec` is written from the specification's words, not from the source:
entry `k` is `∑ j, x[j] · e^{-2πi·jk/n}` (negative exponent convention).
It is the yardstick the source `fft` is compared against. -/

noncomputable def dftEntry (x : List ℝ) (k : ℕ) : ℂ :=
  ∑ j in Finset.range x.length,
    (x.getD j 0 : ℂ) * Complex.exp (-(2 * ↑π * Complex.I * ↑j * ↑k) / ↑x.length)

noncomputable def dftSpec (x : List ℝ) : List ℂ :=
  (List.range x.length).map (dftEntry x)

/-- The primitive `n`-th root of unity used by the DFT (negative sign). -/
noncomputable def wroot (n : ℕ) : ℂ := Complex.exp (-(2 * ↑π * Complex.I) / ↑n)

theorem exp_entry (n j k : ℕ) :
    Complex.exp (-(2 * ↑π * Complex.I * ↑j * ↑k) / ↑n) = wroot n ^ (j * k) := by
  unfold wroot
  rw [← Complex.exp_nat_mul]
  congr 1
  push_cast
  ring

theorem twiddle_eq_wroot_pow (n k : ℕ) : twiddle n k = wroot n ^ k := by
  unfold twiddle wroot
  rw [Complex.mk_eq_add_mul_I, Complex.ofReal_cos, Complex.ofReal_sin, ← Complex.exp_mul_I,
    ← Complex.exp_nat_mul]
  congr 1
  push_cast
  ring

theorem wroot_sq (h : ℕ) (hh : h ≠ 0) : wroot (2 * h) ^ 2 = wroot h := by
  unfold wroot
  rw [show (2 : ℕ) = ((2 : ℕ) : ℕ) from rfl, ← Complex.exp_nat_mul]
  congr 1
  have hh' : (h : ℂ) ≠ 0 := Nat.cast_ne_zero.2 hh
  push_cast
  field_simp
  ring

theorem wroot_pow_half (h : ℕ) (hh : h ≠ 0) : wroot (2 * h) ^ h = -1 := by
  unfold wroot
  rw [← Complex.exp_nat_mul]
  have hh' : (h : ℂ) ≠ 0 := Nat.cast_ne_zero.2 hh
  have : (h : ℂ) * (-(2 * ↑π * Complex.I) / ↑(2 * h)) = -(↑π * Complex.I) := by
    push_cast
    field_simp
    ring
  rw [this, Complex.exp_neg, Complex.exp_pi_mul_I]
  norm_num

theorem wroot_pow_self (h : ℕ) (hh : h ≠ 0) : wroot h ^ h = 1 := by
  unfold wroot
  rw [← Complex.exp_nat_mul]
  have hh' : (h : ℂ) ≠ 0 := Nat.cast_ne_zero.2 hh
  have : (h : ℂ) * (-(2 * ↑π * Complex.I) / ↑h) = -(2 * ↑π * Complex.I) := by
    field_simp
    ring
  rw [this, Complex.exp_neg, Complex.exp_two_pi_mul_I]
  norm_num

theorem sum_range_even_odd (f : ℕ → ℂ) :
    ∀ h : ℕ, ∑ j in Finset.range (2 * h), f j =
      ∑ j in Finset.range h, f (2 * j) + ∑ j in Finset.range h, f (2 * j + 1) := by
  intro h
  induction h with
  | zero => simp
  | succ h ih =>
    rw [show 2 * (h + 1) = 2 * h + 1 + 1 by ring, Finset.sum_range_succ, Finset.sum_range_succ,
      ih, Finset.sum_range_succ, Finset.sum_range_succ]
    ring

theorem dftSpec_length (x : List ℝ) : (dftSpec x).length = x.length := by
  simp [dftSpec]

theorem dftSpec_getD (y : List ℝ) (k : ℕ) (hk : k < y.length) :
    (dftSpec y).getD k 0 = dftEntry y k := by
  unfold dftSpec
  rw [List.getD_eq_getElem?_getD, List.getElem?_map, List.getElem?_range hk]
  rfl

theorem dftEntry_split (h : ℕ) (hh : 0 < h) (x : List ℝ) (hx : x.length = 2 * h)
    (k : ℕ) (_hk : k < 2 * h) :
    dftEntry x k =
      if k < h then dftEntry (evens x) k + wroot (2 * h) ^ k * dftEntry (odds x) k
      else dftEntry (evens x) (k - h) - wroot (2 * h) ^ (k - h) * dftEntry (odds x) (k - h) := by
  have hev : (evens x).length = h := by rw [evens_length, hx]; omega
  have hod : (odds x).length = h := by rw [odds_length, hx]; omega
  have hne : h ≠ 0 := by omega
  have hxw : dftEntry x k =
      ∑ j in Finset.range (2 * h), (x.getD j 0 : ℂ) * wroot (2 * h) ^ (j * k) := by
    unfold dftEntry
    rw [hx]
    exact Finset.sum_congr rfl fun j _ => by rw [exp_entry]
  have hsplit := sum_range_even_odd (fun j => (x.getD j 0 : ℂ) * wroot (2 * h) ^ (j * k)) h
  rw [hxw, hsplit]
  have hEw : ∀ k', dftEntry (evens x) k' =
      ∑ j in Finset.range h, (x.getD (2 * j) 0 : ℂ) * wroot h ^ (j * k') := by
    intro k'
    unfold dftEntry
    rw [hev]
    exact Finset.sum_congr rfl fun j _ => by rw [exp_entry, evens_getD]
  have hOw : ∀ k', dftEntry (odds x) k' =
      ∑ j in Finset.range h, (x.getD (2 * j + 1) 0 : ℂ) * wroot h ^ (j * k') := by
    intro k'
    unfold dftEntry
    rw [hod]
    exact Finset.sum_congr rfl fun j _ => by rw [exp_entry, odds_getD]
  by_cases hcase : k < h
  · rw [if_pos hcase, hEw, hOw, Finset.mul_sum]
    congr 1
    · exact Finset.sum_congr rfl fun j _ => by
        rw [show 2 * j * k = 2 * (j * k) by ring, pow_mul, wroot_sq h hne]
    · exact Finset.sum_congr rfl fun j _ => by
        rw [show (2 * j + 1) * k = 2 * (j * k) + k by ring, pow_add, pow_mul, wroot_sq h hne]
        ring
  · rw [if_neg hcase, hEw, hOw]
    have hk' : k = h + (k - h) := by omega
    set c := k - h with hc
    rw [sub_eq_add_neg, neg_mul_eq_neg_mul, Finset.mul_sum]
    congr 1
    · refine Finset.sum_congr rfl fun j _ => ?_
      rw [hk', show 2 * j * (h + c) = 2 * (j * h + j * c) by ring, pow_mul, wroot_sq h hne,
        pow_add, show j * h = h * j by ring, pow_mul, wroot_pow_self h hne, one_pow, one_mul]
    · refine Finset.sum_congr rfl fun j _ => ?_
      rw [hk', show (2 * j + 1) * (h + c) = 2 * (j * h + j * c) + h + c by ring,
        pow_add, pow_add, pow_mul, wroot_sq h hne, pow_add, show j * h = h * j by ring,
        pow_mul, wroot_pow_self h hne, one_pow, one_mul, wroot_pow_half h hne]
      ring

/-- C2: the recursive radix-2 FFT computes the standard forward DFT with
negative exponent sign convention on every power-of-two-length real input:
`fft x` equals the list whose `k`-th entry is `∑ j, x[j]·e^{-2πi·jk/n}`. -/
theorem fft_computes_dft : ∀ (m : ℕ) (x : List ℝ), x.length = 2 ^ m → fft x = dftSpec x := by
  intro m
  induction m with
  | zero =>
    intro x hx
    obtain ⟨a, rfl⟩ := List.length_eq_one.1 hx
    rw [fft]
    unfold dftSpec dftEntry
    simp [Finset.sum_range_one]
  | succ m ih =>
    intro x hx
    have hpos : 0 < 2 ^ m := Nat.pos_pow_of_pos m (by norm_num)
    have hx2 : x.length = 2 * 2 ^ m := by rw [hx, pow_succ]; ring
    have hlen2 : ¬ (x.length ≤ 1) := by omega
    have hland : ¬ (x.length &&& (x.length - 1) ≠ 0) := by
      rw [hx]; exact fun hcon => hcon (land_pred_pow2 (m + 1))
    have hev : (evens x).length = 2 ^ m := by rw [evens_length, hx2]; omega
    have hod : (odds x).length = 2 ^ m := by rw [odds_length, hx2]; omega
    have hhalf : x.length / 2 = 2 ^ m := by omega
    rw [fft, dif_neg hlen2, dif_neg hland]
    simp only [ih _ hev, ih _ hod]
    conv_rhs => unfold dftSpec
    apply List.map_congr_left
    intro k hk
    rw [List.mem_range] at hk
    rw [dftEntry_split (2 ^ m) hpos x hx2 k (by omega), hhalf]
    by_cases hc : k < 2 ^ m
    · rw [if_pos hc, if_pos hc,
        dftSpec_getD _ _ (by omega), dftSpec_getD _ _ (by omega),
        twiddle_eq_wroot_pow, hx2]
    · rw [if_neg hc, if_neg hc,
        dftSpec_getD _ _ (by omega), dftSpec_getD _ _ (by omega),
        twiddle_eq_wroot_pow, hx2]

theorem fft_computes_dft_witness :
    ([1, 2] : List ℝ).length = 2 ^ 1 ∧ fft [1, 2] = dftSpec [1, 2] :=
  ⟨rfl, fft_computes_dft 1 [1, 2] rfl⟩

/-! ## Termination of the source recursion

`fftFuel` runs the source `fft` recursion with an explicit recursion-depth
budget, returning `none` if the budget runs out.  That a finite budget
always suffices (and reproduces `fft`) is the termination claim. -/

noncomputable def fftFuel : ℕ → List ℝ → Option (List ℂ)
  | 0, _ => none
  | fuel + 1, data =>
    if data.length ≤ 1 then some (data.map (fun x => Complex.ofReal x))
    else if data.length &&& (data.length - 1) ≠ 0 then
      fftFuel fuel (data ++ List.replicate (nextPow2 data.length - data.length) 0)
    else
      match fftFuel fuel (evens data), fftFuel fuel (odds data) with
      | some e, some o =>
        some ((List.range data.length).map fun k =>
          if k < data.length / 2 then
            e.getD k 0 + twiddle data.length k * o.getD k 0
          else
            e.getD (k - data.length / 2) 0 -
              twiddle data.length (k - data.length / 2) * o.getD (k - data.length / 2) 0)
      | _, _ => none

/-- Recursion depth needed by `fft` on an input of length `n`: one padding
step if `n` is not a power of two, then one halving step per factor 2. -/
def fftDepth (n : ℕ) : ℕ :=
  Nat.clog 2 n + (if n &&& (n - 1) = 0 then 1 else 2)

theorem fftFuel_sufficient :
    ∀ (fuel : ℕ) (data : List ℝ), fftDepth data.length ≤ fuel →
      fftFuel fuel data = some (fft data) := by
  intro fuel
  induction fuel with
  | zero =>
    intro data h
    exfalso
    unfold fftDepth at h
    split at h <;> omega
  | succ fuel ih =>
    intro data h
    by_cases h1 : data.length ≤ 1
    · rw [fft, dif_pos h1]
      simp only [fftFuel]
      rw [if_pos h1]
    · by_cases h2 : data.length &&& (data.length - 1) ≠ 0
      · -- padding branch
        have hlen : (data ++ List.replicate (nextPow2 data.length - data.length) 0).length
            = nextPow2 data.length := by
          simp [le_nextPow2 data.length]
        have hdep : fftDepth (data ++ List.replicate
            (nextPow2 data.length - data.length) 0).length ≤ fuel := by
          unfold fftDepth at h ⊢
          rw [hlen]
          unfold nextPow2
          rw [if_pos (land_pred_pow2 _), Nat.clog_pow 2 _ one_lt_two, if_neg h2] at *
          omega
        rw [fft, dif_neg h1, dif_pos h2]
        simp only [fftFuel]
        rw [if_neg h1, if_pos h2]
        exact ih _ hdep
      · -- power-of-two branch
        rw [not_not] at h2
        obtain ⟨t, ht⟩ := (land_pred_eq_zero_iff (by omega)).1 h2
        have ht1 : 1 ≤ t := by
          rcases Nat.eq_zero_or_pos t with rfl | hp
          · rw [ht] at h1; simp at h1
          · exact hp
        have hpow2 : 2 ^ t = 2 * 2 ^ (t - 1) := by
          conv_lhs => rw [show t = 1 + (t - 1) by omega]
          rw [pow_add, pow_one]
        have hev : (evens data).length = 2 ^ (t - 1) := by
          rw [evens_length, ht, hpow2]; omega
        have hod : (odds data).length = 2 ^ (t - 1) := by
          rw [odds_length, ht, hpow2]; omega
        have hdev : fftDepth (evens data).length ≤ fuel := by
          unfold fftDepth at h ⊢
          rw [hev, if_pos (land_pred_pow2 _), Nat.clog_pow 2 _ one_lt_two]
          rw [ht, if_pos (land_pred_pow2 _), Nat.clog_pow 2 _ one_lt_two] at h
          omega
        have hdod : fftDepth (odds data).length ≤ fuel := by
          unfold fftDepth at h ⊢
          rw [hod, if_pos (land_pred_pow2 _), Nat.clog_pow 2 _ one_lt_two]
          rw [ht, if_pos (land_pred_pow2 _), Nat.clog_pow 2 _ one_lt_two] at h
          omega
        rw [fft, dif_neg h1, dif_neg (not_not.2 h2)]
        simp only [fftFuel]
        rw [if_neg h1, if_neg (not_not.2 h2), ih _ hdev, ih _ hdod]

theorem fftFuel_length :
    ∀ (fuel : ℕ) (data : List ℝ) (r : List ℂ), fftFuel fuel data = some r →
      r.length = if data.length ≤ 1 then data.length else nextPow2 data.length := by
  intro fuel
  induction fuel with
  | zero =>
    intro data r h
    exact absurd h (by simp [fftFuel])
  | succ fuel ih =>
    intro data r h
    simp only [fftFuel] at h
    by_cases h1 : data.length ≤ 1
    · rw [if_pos h1] at h
      obtain rfl := Option.some_injective _ h.symm
      rw [if_pos h1, List.length_map]
    · rw [if_neg h1] at h ⊢
      by_cases h2 : data.length &&& (data.length - 1) ≠ 0
      · rw [if_pos h2] at h
        have hlen : (data ++ List.replicate (nextPow2 data.length - data.length) 0).length
            = nextPow2 data.length := by
          simp [le_nextPow2 data.length]
        have hr := ih _ r h
        rw [hlen] at hr
        have hN1 : ¬ (nextPow2 data.length ≤ 1) := by
          have := le_nextPow2 data.length
          omega
        rw [hr, if_neg hN1]
        exact nextPow2_pow _
      · rw [if_neg h2] at h
        rcases he : fftFuel fuel (evens data) with _ | e <;> rw [he] at h
        · exact absurd h (by simp)
        rcases ho : fftFuel fuel (odds data) with _ | o <;> rw [ho] at h
        · exact absurd h (by simp)
        obtain rfl := Option.some_injective _ h.symm
        rw [not_not] at h2
        obtain ⟨t, ht⟩ := (land_pred_eq_zero_iff (by omega)).1 h2
        rw [List.length_map, List.length_range, ht, nextPow2_pow]

/-- The source `fft` returns its input length when that is `≤ 1` and the
next power of two otherwise. -/
theorem fft_length (data : List ℝ) :
    (fft data).length = if data.length ≤ 1 then data.length else nextPow2 data.length :=
  fftFuel_length (fftDepth data.length) data (fft data)
    (fftFuel_sufficient _ data le_rfl)

theorem two_le_fft_length (data : List ℝ) (h : 2 ≤ data.length) :
    2 ≤ (fft data).length := by
  rw [fft_length, if_neg (by omega)]
  exact le_trans h (le_nextPow2 _)

/-- C10: the source `fft` recursion terminates on every finite real input:
running the recursion with the explicit finite budget
`Nat.clog 2 n + 2` never exhausts the budget and returns exactly the value
of the total function `fft` (the non-power-of-two branch recurses once on
the power-of-two padded list, the power-of-two branch on two half-length
lists). -/
theorem fft_recursion_terminates (data : List ℝ) :
    fftFuel (Nat.clog 2 data.length + 2) data = some (fft data) :=
  fftFuel_sufficient _ data (by unfold fftDepth; split <;> omega)

/-! ## Window functions

Transcription of the source `applyWindow`.  The source returns the input
array unchanged for `'rectangular'` (early return) and otherwise maps
sample `i` to `data[i] * multiplier(i)`.  For `n = 1` the source divides
by `n - 1 = 0` (JS: `NaN`); here the quotient is Lean's `x / 0 = 0`.  The
discrepancy is unobservable in the analysed code: for a length-one input
the half-spectrum is empty, so the magnitude and phase arrays — the only
readers of the windowed values — are both empty (the length-one input's
out-of-bounds `phases[peakIndex]` read is a separate matter, modelled
faithfully with `getElem?` in `processPhase` below). -/

inductive WindowFunctionType
  | rectangular
  | hanning
  | hamming
  | blackman
deriving DecidableEq

noncomputable def windowMult (t : WindowFunctionType) (n : ℕ) (i : ℕ) : ℝ :=
  match t with
  | .rectangular => 1
  | .hanning => 0.5 - 0.5 * Real.cos ((2 * π * i) / ((n : ℝ) - 1))
  | .hamming => 0.54 - 0.46 * Real.cos ((2 * π * i) / ((n : ℝ) - 1))
  | .blackman =>
      0.42 - 0.5 * Real.cos ((2 * π * i) / ((n : ℝ) - 1))
        + 0.08 * Real.cos ((4 * π * i) / ((n : ℝ) - 1))

noncomputable def applyWindow (data : List ℝ) (t : WindowFunctionType) : List ℝ :=
  if t = .rectangular then data
  else data.mapIdx (fun i x => x * windowMult t data.length i)

/-- C9: the rectangular window is the identity on the data,
element for element. -/
theorem applyWindow_rectangular_id (data : List ℝ) :
    applyWindow data .rectangular = data := by
  simp [applyWindow]

theorem applyWindow_length (data : List ℝ) (t : WindowFunctionType) :
    (applyWindow data t).length = data.length := by
  cases t <;> simp [applyWindow]

theorem mapIdx_zero :
    ∀ (n : ℕ) (f : ℕ → ℝ → ℝ), (∀ i, f i 0 = 0) →
      List.mapIdx f (List.replicate n (0 : ℝ)) = List.replicate n 0 := by
  intro n
  induction n with
  | zero => intro f _; rfl
  | succ n ih =>
    intro f hf
    rw [List.replicate_succ, List.mapIdx_cons, hf 0, ih _ (fun i => hf (i + 1)),
      ← List.replicate_succ]

theorem applyWindow_zero (n : ℕ) (t : WindowFunctionType) :
    applyWindow (List.replicate n 0) t = List.replicate n 0 := by
  unfold applyWindow
  split
  · rfl
  · exact mapIdx_zero n _ (fun i => zero_mul _)

/-! ## Waveform samples and per-channel lookup

The source's `WaveformDataPoint` is a JS object `{ time, ch0: …, ch1: … }`;
modelled as a time stamp plus an association list from channel name to
value.  `chVal` models the ubiquitous `p[channel] || 0`: a missing key
gives `0`, and `|| 0` maps an actual `0` to `0`, so the association-list
default is exact. -/

structure Sample where
  time : ℝ
  values : List (String × ℝ)

def chVal (p : Sample) (ch : String) : ℝ :=
  (((p.values.find? (fun q => q.1 == ch)).map Prod.snd).getD 0)

/-! ## Channel statistics (source `calculateStats`) -/

structure ChannelStats where
  channelId : String
  min : ℝ
  max : ℝ
  average : ℝ
  rms : ℝ
  acRms : ℝ
  dominantFrequency : ℝ

/-- Source seeds `min` with `Infinity`; the first value always replaces the
seed (`v < Infinity`), so on the nonempty lists this is ever applied to the
fold below is exact.  `calculateStats` guards `waveform.length === 0`, so
the `[]` case is never reached. -/
noncomputable def jsMinList : List ℝ → ℝ
  | [] => 0
  | v :: rest => rest.foldl (fun m x => if x < m then x else m) v

noncomputable def jsMaxList : List ℝ → ℝ
  | [] => 0
  | v :: rest => rest.foldl (fun m x => if x > m then x else m) v

noncomputable def channelStatsOf (waveform : List Sample) (channel : String) : ChannelStats :=
  let vals := waveform.map (fun p => chVal p channel)
  let n := waveform.length
  let sum := vals.foldl (fun s v => s + v) (0 : ℝ)
  let sumSq := vals.foldl (fun s v => s + v * v) (0 : ℝ)
  let mn := jsMinList vals
  let mx := jsMaxList vals
  let average := sum / n
  let rms := Real.sqrt (sumSq / n)
  let sumSqDiff := vals.foldl (fun s v => s + (v - average) ^ 2) (0 : ℝ)
  let acRms := Real.sqrt (sumSqDiff / n)
  { channelId := channel, min := mn, max := mx, average := average,
    rms := rms, acRms := acRms, dominantFrequency := 0 }

noncomputable def calculateStats (waveform : List Sample) (channels : List String) :
    List ChannelStats :=
  if waveform.length = 0 then []
  else channels.map (channelStatsOf waveform)

/-! ### Facts about the statistics folds -/

theorem foldl_add_gen (g : ℝ → ℝ) :
    ∀ (l : List ℝ) (a : ℝ), l.foldl (fun s v => s + g v) a = a + (l.map g).sum := by
  intro l
  induction l with
  | nil => intro a; simp
  | cons x t ih => intro a; simp [ih]; ring

theorem foldl_min_le :
    ∀ (l : List ℝ) (a : ℝ),
      l.foldl (fun m x => if x < m then x else m) a ≤ a ∧
      ∀ x ∈ l, l.foldl (fun m x => if x < m then x else m) a ≤ x := by
  intro l
  induction l with
  | nil => intro a; simp
  | cons y t ih =>
    intro a
    have h1 := (ih (if y < a then y else a)).1
    have h2 := (ih (if y < a then y else a)).2
    have hya : (if y < a then y else a) ≤ a := by split <;> simp_all <;> linarith
    have hyy : (if y < a then y else a) ≤ y := by split <;> simp_all <;> linarith
    refine ⟨by simpa using le_trans h1 hya, ?_⟩
    intro x hx
    rcases List.mem_cons.1 hx with rfl | hx
    · simpa using le_trans h1 hyy
    · simpa using h2 x hx

theorem foldl_max_ge :
    ∀ (l : List ℝ) (a : ℝ),
      a ≤ l.foldl (fun m x => if x > m then x else m) a ∧
      ∀ x ∈ l, x ≤ l.foldl (fun m x => if x > m then x else m) a := by
  intro l
  induction l with
  | nil => intro a; simp
  | cons y t ih =>
    intro a
    have h1 := (ih (if y > a then y else a)).1
    have h2 := (ih (if y > a then y else a)).2
    have hya : a ≤ (if y > a then y else a) := by split <;> simp_all <;> linarith
    have hyy : y ≤ (if y > a then y else a) := by split <;> simp_all <;> linarith
    refine ⟨by simpa using le_trans hya h1, ?_⟩
    intro x hx
    rcases List.mem_cons.1 hx with rfl | hx
    · simpa using le_trans hyy h1
    · simpa using h2 x hx

theorem jsMinList_le (l : List ℝ) (hl : l ≠ []) : ∀ x ∈ l, jsMinList l ≤ x := by
  cases l with
  | nil => exact absurd rfl hl
  | cons v rest =>
    intro x hx
    rcases List.mem_cons.1 hx with rfl | hx
    · exact (foldl_min_le rest x).1
    · exact (foldl_min_le rest v).2 x hx

theorem le_jsMaxList (l : List ℝ) (hl : l ≠ []) : ∀ x ∈ l, x ≤ jsMaxList l := by
  cases l with
  | nil => exact absurd rfl hl
  | cons v rest =>
    intro x hx
    rcases List.mem_cons.1 hx with rfl | hx
    · exact (foldl_max_ge rest x).1
    · exact (foldl_max_ge rest v).2 x hx

theorem const_mul_length_le_sum :
    ∀ (l : List ℝ) (c : ℝ), (∀ x ∈ l, c ≤ x) → c * l.length ≤ l.sum := by
  intro l
  induction l with
  | nil => intro c _; simp
  | cons x t ih =>
    intro c hc
    have h1 : c ≤ x := hc x (List.mem_cons_self x t)
    have h2 := ih c (fun y hy => hc y (List.mem_cons_of_mem x hy))
    simp only [List.sum_cons, List.length_cons]
    push_cast
    nlinarith

theorem sum_le_const_mul_length :
    ∀ (l : List ℝ) (c : ℝ), (∀ x ∈ l, x ≤ c) → l.sum ≤ c * l.length := by
  intro l
  induction l with
  | nil => intro c _; simp
  | cons x t ih =>
    intro c hc
    have h1 : x ≤ c := hc x (List.mem_cons_self x t)
    have h2 := ih c (fun y hy => hc y (List.mem_cons_of_mem x hy))
    simp only [List.sum_cons, List.length_cons]
    push_cast
    nlinarith

/-! ### Claim C5 (corrected) and claim C8 -/

/-- C5 counterexample: on the empty waveform the source returns the empty
list regardless of the channel list — not one zero-filled record per
channel, so with channel list `["ch0"]` there is no record at all. -/
theorem calculateStats_empty_returns_nil :
    calculateStats [] ["ch0"] = [] ∧ (calculateStats [] ["ch0"]).length ≠ ["ch0"].length := by
  constructor
  · simp [calculateStats]
  · simp [calculateStats]

/-- C5 (amended): for a non-empty waveform `calculateStats` returns exactly
one `ChannelStats` record per channel of the list, in order; for the empty
waveform it returns the empty list (no error), not zero-filled records. -/
theorem calculateStats_channelIds (waveform : List Sample) (channels : List String) :
    (calculateStats waveform channels).map (fun s => s.channelId) =
      if waveform.length = 0 then [] else channels := by
  unfold calculateStats
  split
  · rfl
  · rw [List.map_map]
    have : ((fun s : ChannelStats => s.channelId) ∘ channelStatsOf waveform) = id :=
      funext fun c => rfl
    rw [this, List.map_id]

theorem channelStatsOf_spec (waveform : List Sample) (ch : String) (hw : waveform ≠ []) :
    ((channelStatsOf waveform ch).min ≤ (channelStatsOf waveform ch).average ∧
      (channelStatsOf waveform ch).average ≤ (channelStatsOf waveform ch).max ∧
      0 ≤ (channelStatsOf waveform ch).rms ∧ 0 ≤ (channelStatsOf waveform ch).acRms) ∧
    ∀ c : ℝ, (∀ p ∈ waveform, chVal p ch = c) →
      (channelStatsOf waveform ch).acRms = 0 ∧ (channelStatsOf waveform ch).rms = |c| := by
  have hn : 0 < waveform.length := List.length_pos.2 hw
  have hnR : (0 : ℝ) < (waveform.length : ℝ) := by exact_mod_cast hn
  simp only [channelStatsOf]
  set vals := waveform.map (fun p => chVal p ch) with hvals
  have hvne : vals ≠ [] := by
    simp [hvals, hw]
  have hvlen : vals.length = waveform.length := by simp [hvals]
  have hsum : vals.foldl (fun s v => s + v) (0 : ℝ) = vals.sum := by
    have := foldl_add_gen (fun v => v) vals 0
    simpa using this
  constructor
  · refine ⟨?_, ?_, Real.sqrt_nonneg _, Real.sqrt_nonneg _⟩
    · -- min ≤ average
      rw [hsum]
      rw [le_div_iff hnR]
      have := const_mul_length_le_sum vals (jsMinList vals) (jsMinList_le vals hvne)
      rw [hvlen] at this
      exact this
    · -- average ≤ max
      rw [hsum]
      rw [div_le_iff hnR]
      have := sum_le_const_mul_length vals (jsMaxList vals) (le_jsMaxList vals hvne)
      rw [hvlen] at this
      exact this
  · intro c hc
    have hrepl : vals = List.replicate waveform.length c := by
      rw [hvals]
      refine List.eq_replicate.2 ⟨by simp, ?_⟩
      intro b hb
      obtain ⟨p, hp, rfl⟩ := List.mem_map.1 hb
      exact hc p hp
    constructor
    · -- acRms = 0 for a constant channel
      have havg : vals.foldl (fun s v => s + v) (0 : ℝ) / (waveform.length : ℝ) = c := by
        rw [hsum, hrepl, List.sum_replicate, nsmul_eq_mul]
        field_simp
      rw [havg]
      have hdiff : vals.foldl (fun s v => s + (v - c) ^ 2) (0 : ℝ) = 0 := by
        rw [foldl_add_gen, hrepl]
        simp
      rw [hdiff]
      simp
    · -- rms = |c| for a constant channel
      have hsq : vals.foldl (fun s v => s + v * v) (0 : ℝ) = (waveform.length : ℝ) * (c * c) := by
        rw [foldl_add_gen, hrepl]
        simp [List.sum_replicate, nsmul_eq_mul]
      rw [hsq]
      rw [show (waveform.length : ℝ) * (c * c) / (waveform.length : ℝ) = c ^ 2 by field_simp; ring]
      exact Real.sqrt_sq_eq_abs c

/-- C8: for a non-empty waveform, every record returned by `calculateStats`
satisfies `min ≤ average ≤ max`, `rms ≥ 0`, `acRms ≥ 0`; and if the
record's channel is the constant `c` at every sample, `acRms = 0` and
`rms = |c|`. -/
theorem calculateStats_invariants (waveform : List Sample) (channels : List String)
    (s : ChannelStats) (hw : waveform ≠ []) (hs : s ∈ calculateStats waveform channels) :
    (s.min ≤ s.average ∧ s.average ≤ s.max ∧ 0 ≤ s.rms ∧ 0 ≤ s.acRms) ∧
      ∀ c : ℝ, (∀ p ∈ waveform, chVal p s.channelId = c) → s.acRms = 0 ∧ s.rms = |c| := by
  unfold calculateStats at hs
  rw [if_neg (by simpa using fun h => hw (List.length_eq_zero.1 h))] at hs
  obtain ⟨ch, _, rfl⟩ := List.mem_map.1 hs
  have hid : (channelStatsOf waveform ch).channelId = ch := rfl
  rw [hid]
  exact channelStatsOf_spec waveform ch hw

theorem calculateStats_invariants_witness :
    (([⟨0, [("ch0", 2)]⟩] : List Sample) ≠ [] ∧
      channelStatsOf [⟨0, [("ch0", 2)]⟩] "ch0" ∈ calculateStats [⟨0, [("ch0", 2)]⟩] ["ch0"]) ∧
    ((channelStatsOf [⟨0, [("ch0", 2)]⟩] "ch0").min ≤
        (channelStatsOf [⟨0, [("ch0", 2)]⟩] "ch0").average ∧
      (channelStatsOf [⟨0, [("ch0", 2)]⟩] "ch0").average ≤
        (channelStatsOf [⟨0, [("ch0", 2)]⟩] "ch0").max ∧
      0 ≤ (channelStatsOf [⟨0, [("ch0", 2)]⟩] "ch0").rms ∧
      0 ≤ (channelStatsOf [⟨0, [("ch0", 2)]⟩] "ch0").acRms) ∧
    ∀ c : ℝ, (∀ p ∈ ([⟨0, [("ch0", 2)]⟩] : List Sample),
        chVal p (channelStatsOf [⟨0, [("ch0", 2)]⟩] "ch0").channelId = c) →
      (channelStatsOf [⟨0, [("ch0", 2)]⟩] "ch0").acRms = 0 ∧
        (channelStatsOf [⟨0, [("ch0", 2)]⟩] "ch0").rms = |c| := by
  refine ⟨⟨by simp, by simp [calculateStats]⟩, ?_⟩
  exact calculateStats_invariants [⟨0, [("ch0", 2)]⟩] ["ch0"]
    (channelStatsOf [⟨0, [("ch0", 2)]⟩] "ch0") (by simp) (by simp [calculateStats])

/-! ## Power quality analyzer (source `calculatePowerQuality`)

`atan2` is `Math.atan2(y, x)` (IEEE definition, range `(-π, π]`; the
signed-zero distinctions of IEEE, which `ℝ` cannot express, are dropped).
`jsDiv` marks the two divisions whose denominator the source does *not*
guard (the fundamental magnitude `maxMag`): a zero denominator yields
`none`, standing for the non-finite JS result. -/

noncomputable def atan2 (y x : ℝ) : ℝ :=
  if 0 < x then Real.arctan (y / x)
  else if x < 0 then
    (if 0 ≤ y then Real.arctan (y / x) + π else Real.arctan (y / x) - π)
  else
    (if 0 < y then π / 2 else if y < 0 then -(π / 2) else 0)

noncomputable def jsDiv (a b : ℝ) : Option ℝ :=
  if b = 0 then none else some (a / b)

/-- JS `%` (remainder truncated toward zero, sign of the dividend). -/
noncomputable def rtrunc (x : ℝ) : ℤ := if 0 ≤ x then ⌊x⌋ else ⌈x⌉

noncomputable def jsMod (a b : ℝ) : ℝ := a - b * rtrunc (a / b)

/-- Source `normalizeAngle`: degrees of `rad`, JS-remainder by 360, then
two conditional shifts. -/
noncomputable def normalizeAngle (rad : ℝ) : ℝ :=
  let deg := jsMod (rad * 180 / π) 360
  let deg1 := if deg > 180 then deg - 360 else deg
  if deg1 < -180 then deg1 + 360 else deg1

structure HarmonicInfo where
  order : ℕ
  frequency : ℝ
  magnitude : ℝ
  percentage : Option ℝ

/-- `angleRad` is the JS field `angleRad: phases[peakIndex]`: the read is
out of bounds exactly when the half-spectrum is empty (a one-sample
waveform), where JS yields `undefined` and every later arithmetic use
yields `NaN`; both are modelled by `none`.  `angleDeg` is derived from
`angleRad` and inherits the `none`. -/
structure PhaseResult where
  phaseId : String
  rms : ℝ
  frequency : ℝ
  angleRad : Option ℝ
  angleDeg : Option ℝ
  thd : Option ℝ
  harmonics : List HarmonicInfo

noncomputable def defaultPhaseResult : PhaseResult :=
  { phaseId := "", rms := 0, frequency := 0, angleRad := none, angleDeg := none,
    thd := none, harmonics := [] }

noncomputable instance : Inhabited PhaseResult := ⟨defaultPhaseResult⟩

structure PowerAnalysisResult where
  fundamentalFreq : ℝ
  phases : List PhaseResult
  unbalance : ℝ

/-- The `i > 1 && mag > maxMag` fundamental search over the first half of
the spectrum, as a fold carrying `(maxMag, peakIndex)` seeded `(-1, 0)`. -/
noncomputable def peakSearch (magnitudes : List ℝ) (halfN : ℕ) : ℝ × ℕ :=
  (List.range halfN).foldl
    (fun acc i =>
      if 1 < i ∧ acc.1 < magnitudes.getD i 0 then (magnitudes.getD i 0, i) else acc)
    (-1, 0)

/-- The `±2`-bin neighbourhood search around `peakIndex * order`, carrying
`(bestMag, bestIdx)` seeded `(-1, idealTargetIdx)`.  Offsets run in source
order `-2 … 2`; the index is an integer before the `idx > 0` test. -/
noncomputable def harmonicSearch (magnitudes : List ℝ) (halfN idealTargetIdx : ℕ) : ℝ × ℕ :=
  ([-2, -1, 0, 1, 2] : List ℤ).foldl
    (fun acc offset =>
      let idx : ℤ := (idealTargetIdx : ℤ) + offset
      if 0 < idx ∧ idx < (halfN : ℤ) ∧ acc.1 < magnitudes.getD idx.toNat 0 then
        (magnitudes.getD idx.toNat 0, idx.toNat)
      else acc)
    (-1, idealTargetIdx)

/-- One phase of `calculatePowerQuality` (the source's inner `processPhase`
closure; `n` is the captured outer `dataU.length`).  The harmonic list is
written as a `filterMap` over orders `1 … 15`; the source pushes exactly
the `some`s of this map, in the same order, and accumulates
`harmonicsSumSq` at exactly the pushes with `order > 1`, which the fold
over the resulting list below reproduces. -/
noncomputable def processPhase (sampleRateHz : ℝ) (n : ℕ) (phaseId : String)
    (data : List ℝ) : PhaseResult :=
  let sumSq := data.foldl (fun s x => s + x * x) (0 : ℝ)
  let rms := Real.sqrt (sumSq / n)
  let windowed := applyWindow data .hanning
  let X := fft windowed
  let len := X.length
  let halfN := len / 2
  let magnitudes := (List.range halfN).map (fun i =>
    Real.sqrt ((X.getD i 0).re * (X.getD i 0).re + (X.getD i 0).im * (X.getD i 0).im)
      * (2 / (len : ℝ)))
  let phases := (List.range halfN).map (fun i => atan2 (X.getD i 0).im (X.getD i 0).re)
  let pk := peakSearch magnitudes halfN
  let maxMag := pk.1
  let peakIndex := pk.2
  let fundamentalFreq := (peakIndex : ℝ) * sampleRateHz / (len : ℝ)
  let fundamentalPhaseRad := phases[peakIndex]?
  let harmonics := (List.range' 1 15).filterMap (fun order =>
    let best := harmonicSearch magnitudes halfN (peakIndex * order)
    if best.2 < halfN then
      some { order := order, frequency := (best.2 : ℝ) * sampleRateHz / (len : ℝ),
             magnitude := best.1, percentage := (jsDiv best.1 maxMag).map (fun q => q * 100) }
    else none)
  let harmonicsSumSq := harmonics.foldl
    (fun s h => if 1 < h.order then s + h.magnitude * h.magnitude else s) (0 : ℝ)
  let thd := (jsDiv (Real.sqrt harmonicsSumSq) maxMag).map (fun q => q * 100)
  { phaseId := phaseId, rms := rms, frequency := fundamentalFreq,
    angleRad := fundamentalPhaseRad, angleDeg := some 0, thd := thd,
    harmonics := harmonics }

/-- JS subtraction where either operand may be `undefined`/`NaN` (`none`):
any `none` operand makes the result `NaN`, i.e. `none`. -/
noncomputable def jsSub (a b : Option ℝ) : Option ℝ :=
  match a, b with
  | some x, some y => some (x - y)
  | _, _ => none

/-- Source `calculatePowerQuality`: phases U and V are read off the
waveform, W is derived by `-u - v`; each phase is processed independently
and then the `angleDeg` fields are rewritten relative to phase U
(`normalizeAngle(p.angleRad - refAngle)`; an `undefined` raw angle makes
the difference `NaN` and `normalizeAngle` maps `NaN` to `NaN` — both
comparisons in it are false on `NaN` — so `none` propagates to
`angleDeg`). -/
noncomputable def calculatePowerQuality (waveform : List Sample) (sampleRateHz : ℝ)
    (chU chV : String) : PowerAnalysisResult :=
  let dataU := waveform.map (fun p => chVal p chU)
  let dataV := waveform.map (fun p => chVal p chV)
  let dataW := List.zipWith (fun u v => -u - v) dataU dataV
  let n := dataU.length
  let phaseU := processPhase sampleRateHz n "U" dataU
  let phaseV := processPhase sampleRateHz n "V" dataV
  let phaseW := processPhase sampleRateHz n "W" dataW
  let refAngle := phaseU.angleRad
  let pU := { phaseU with angleDeg := (jsSub phaseU.angleRad refAngle).map normalizeAngle }
  let pV := { phaseV with angleDeg := (jsSub phaseV.angleRad refAngle).map normalizeAngle }
  let pW := { phaseW with angleDeg := (jsSub phaseW.angleRad refAngle).map normalizeAngle }
  let avgRms := (pU.rms + pV.rms + pW.rms) / 3
  let maxDev := max (|pU.rms - avgRms|) (max (|pV.rms - avgRms|) (|pW.rms - avgRms|))
  let unbalance := if 0 < avgRms then maxDev / avgRms * 100 else 0
  { fundamentalFreq := pU.frequency, phases := [pU, pV, pW], unbalance := unbalance }

/-! ### Claim C3: angle normalization -/

theorem normalizeAngle_zero : normalizeAngle 0 = 0 := by
  norm_num [normalizeAngle, jsMod, rtrunc]

/-- `normalizeAngle` returns a value congruent to `rad` in degrees
modulo 360, lying in the closed interval `[-180, 180]` (both endpoints are
attainable: the JS remainder keeps the dividend's sign, so `±180` map to
themselves). -/
theorem normalizeAngle_spec (r : ℝ) :
    (∃ k : ℤ, normalizeAngle r = r * 180 / π - 360 * k) ∧
      -180 ≤ normalizeAngle r ∧ normalizeAngle r ≤ 180 := by
  simp only [normalizeAngle, jsMod]
  set x := r * 180 / π with hxdef
  set t := rtrunc (x / 360) with htdef
  have hx360 : x = 360 * (x / 360) := by field_simp
  have hd : -360 < x - 360 * (t : ℝ) ∧ x - 360 * (t : ℝ) < 360 := by
    rw [htdef]
    unfold rtrunc
    split
    · have h1 := Int.floor_le (x / 360)
      have h2 := Int.lt_floor_add_one (x / 360)
      constructor <;> [nlinarith; nlinarith]
    · have h1 := Int.le_ceil (x / 360)
      have h2 := Int.ceil_lt_add_one (x / 360)
      constructor <;> [nlinarith; nlinarith]
  constructor
  · by_cases hgt : x - 360 * (t : ℝ) > 180
    · rw [if_pos hgt, if_neg (by linarith [hd.2])]
      exact ⟨t + 1, by push_cast; ring⟩
    · rw [if_neg hgt]
      by_cases hlt : x - 360 * (t : ℝ) < -180
      · rw [if_pos hlt]
        exact ⟨t - 1, by push_cast; ring⟩
      · rw [if_neg hlt]
        exact ⟨t, by push_cast; ring⟩
  · constructor
    · split
      · split <;> linarith [hd.1, hd.2]
      · split <;> linarith [hd.1, hd.2]
    · split
      · split <;> linarith [hd.1, hd.2]
      · split <;> linarith [hd.1, hd.2]

/-- The fundamental search writes only indices drawn from
`range halfN`, so its result index stays below `halfN` whenever the seed
`0` does. -/
theorem peakSearch_index_lt (mags : List ℝ) (halfN : ℕ) (h : 0 < halfN) :
    (peakSearch mags halfN).2 < halfN := by
  unfold peakSearch
  have key : ∀ (l : List ℕ) (acc : ℝ × ℕ), (∀ i ∈ l, i < halfN) → acc.2 < halfN →
      (l.foldl (fun acc i =>
        if 1 < i ∧ acc.1 < mags.getD i 0 then (mags.getD i 0, i) else acc) acc).2
        < halfN := by
    intro l
    induction l with
    | nil => intro acc _ hacc; exact hacc
    | cons a t ih =>
      intro acc hmem hacc
      rw [List.foldl_cons]
      refine ih _ (fun i hi => hmem i (List.mem_cons_of_mem a hi)) ?_
      split
      · exact hmem a (List.mem_cons_self a t)
      · exact hacc
  exact key (List.range halfN) (-1, 0) (fun i hi => List.mem_range.1 hi) h

/-- On at least two samples the half-spectrum is non-empty, the peak index
lands inside it, and the `phases[peakIndex]` read is in bounds. -/
theorem processPhase_angleRad_isSome (rate : ℝ) (n : ℕ) (pid : String)
    (data : List ℝ) (h : 2 ≤ data.length) :
    ∃ a : ℝ, (processPhase rate n pid data).angleRad = some a := by
  have hXlen : 2 ≤ (fft (applyWindow data .hanning)).length :=
    two_le_fft_length _ (by rw [applyWindow_length]; exact h)
  simp only [processPhase]
  refine ⟨_, List.getElem?_eq_getElem ?_⟩
  rw [List.length_map, List.length_range]
  exact peakSearch_index_lt _ _ (by omega)

/-- C3 (amended): in every power-quality result on a waveform of **at
least two samples**, phase U's normalized `angleDeg` is exactly 0, and
every phase's `angleDeg` is a finite number equal to that phase's raw
fundamental phase minus phase U's raw fundamental phase, converted to
degrees and wrapped modulo 360 into the **closed** interval `[-180, 180]`
(the boundary value `-180` is returned as `-180`, not wrapped to `180`;
the original claim's half-open interval `(-180, 180]` is refuted by the
first counterexample below).  On a **one-sample** waveform the claim
fails entirely: the half-spectrum is empty, the source reads
`phases[0] = undefined`, and every phase's `angleDeg` is `NaN`
(modelled `none`), neither `0` nor inside any interval. -/
theorem powerQuality_angle_normalization (w : List Sample) (rate : ℝ) (u v : String)
    (hw : 2 ≤ w.length) :
    ((calculatePowerQuality w rate u v).phases.getD 0 defaultPhaseResult).angleDeg
        = some 0 ∧
    ∀ p ∈ (calculatePowerQuality w rate u v).phases,
      ∃ a r d : ℝ, p.angleRad = some a ∧
        ((calculatePowerQuality w rate u v).phases.getD 0
          defaultPhaseResult).angleRad = some r ∧
        p.angleDeg = some d ∧
        (∃ k : ℤ, d = (a - r) * 180 / π - 360 * k) ∧
        -180 ≤ d ∧ d ≤ 180 := by
  obtain ⟨aU, haU⟩ := processPhase_angleRad_isSome rate (w.map (fun p => chVal p u)).length
    "U" (w.map (fun p => chVal p u)) (by simpa using hw)
  obtain ⟨aV, haV⟩ := processPhase_angleRad_isSome rate (w.map (fun p => chVal p u)).length
    "V" (w.map (fun p => chVal p v)) (by simpa using hw)
  obtain ⟨aW, haW⟩ := processPhase_angleRad_isSome rate (w.map (fun p => chVal p u)).length
    "W" (List.zipWith (fun u v => -u - v) (w.map (fun p => chVal p u))
          (w.map (fun p => chVal p v))) (by simpa using hw)
  simp only [calculatePowerQuality]
  rw [haU, haV, haW]
  constructor
  · simp only [List.getD_cons_zero, jsSub]
    rw [sub_self, Option.map_some', normalizeAngle_zero]
  · intro p hp
    simp only [List.getD_cons_zero]
    rcases List.mem_cons.1 hp with rfl | hp
    · exact ⟨aU, aU, _, rfl, rfl, by rw [jsSub, Option.map_some'],
        (normalizeAngle_spec _).1, (normalizeAngle_spec _).2⟩
    rcases List.mem_cons.1 hp with rfl | hp
    · exact ⟨aV, aU, _, rfl, rfl, by rw [jsSub, Option.map_some'],
        (normalizeAngle_spec _).1, (normalizeAngle_spec _).2⟩
    rcases List.mem_cons.1 hp with rfl | hp
    · exact ⟨aW, aU, _, rfl, rfl, by rw [jsSub, Option.map_some'],
        (normalizeAngle_spec _).1, (normalizeAngle_spec _).2⟩
    · exact absurd hp (List.not_mem_nil p)

theorem powerQuality_angle_normalization_witness :
    (2 ≤ ([⟨0, []⟩, ⟨1, []⟩] : List Sample).length) ∧
    (((calculatePowerQuality [⟨0, []⟩, ⟨1, []⟩] 1 "a" "b").phases.getD 0
        defaultPhaseResult).angleDeg = some 0 ∧
    ∀ p ∈ (calculatePowerQuality [⟨0, []⟩, ⟨1, []⟩] 1 "a" "b").phases,
      ∃ a r d : ℝ, p.angleRad = some a ∧
        ((calculatePowerQuality [⟨0, []⟩, ⟨1, []⟩] 1 "a" "b").phases.getD 0
          defaultPhaseResult).angleRad = some r ∧
        p.angleDeg = some d ∧
        (∃ k : ℤ, d = (a - r) * 180 / π - 360 * k) ∧
        -180 ≤ d ∧ d ≤ 180) :=
  ⟨by simp, powerQuality_angle_normalization [⟨0, []⟩, ⟨1, []⟩] 1 "a" "b" (by simp)⟩

/-! ### Concrete FFT evaluations on lengths 1, 2, 4 -/

theorem twiddle_zero (n : ℕ) : twiddle n 0 = 1 := by
  unfold twiddle
  norm_num
  rfl

theorem twiddle_4_1 : twiddle 4 1 = ⟨0, -1⟩ := by
  unfold twiddle
  have harg : (-2 * π * ((1 : ℕ) : ℝ)) / ((4 : ℕ) : ℝ) = -(π / 2) := by push_cast; ring
  rw [harg, Real.cos_neg, Real.sin_neg, Real.cos_pi_div_two, Real.sin_pi_div_two]

theorem fft_one (x : ℝ) : fft [x] = [(x : ℂ)] := by
  rw [fft]
  norm_num

theorem fft_two (x y : ℝ) : fft [x, y] = [(x : ℂ) + (y : ℂ), (x : ℂ) - (y : ℂ)] := by
  rw [fft]
  rw [dif_neg (by norm_num), dif_neg (by norm_num)]
  have he : evens [x, y] = [x] := rfl
  have ho : odds [x, y] = [y] := rfl
  rw [he, ho, fft_one, fft_one]
  have hr : List.range ([x, y].length) = [0, 1] := by norm_num [List.range_succ]
  rw [hr]
  simp [twiddle_zero]

theorem fft_four (a0 a1 a2 a3 : ℝ) :
    fft [a0, a1, a2, a3] =
      [((a0 + a2 : ℝ) : ℂ) + ((a1 + a3 : ℝ) : ℂ),
       ⟨a0 - a2, -(a1 - a3)⟩,
       ((a0 + a2 : ℝ) : ℂ) - ((a1 + a3 : ℝ) : ℂ),
       ⟨a0 - a2, a1 - a3⟩] := by
  rw [fft]
  have hland4 : ¬([a0, a1, a2, a3].length &&& ([a0, a1, a2, a3].length - 1) ≠ 0) := by
    have h4 : [a0, a1, a2, a3].length = 4 := rfl
    rw [h4]
    decide
  rw [dif_neg (by norm_num), dif_neg hland4]
  have he : evens [a0, a1, a2, a3] = [a0, a2] := rfl
  have ho : odds [a0, a1, a2, a3] = [a1, a3] := rfl
  rw [he, ho, fft_two, fft_two]
  have hr : List.range ([a0, a1, a2, a3].length) = [0, 1, 2, 3] := by
    norm_num [List.range_succ]
  rw [hr]
  simp only [List.map_cons, List.map_nil, List.length_cons, List.length_nil]
  norm_num [twiddle_zero, twiddle_4_1]
  constructor <;> (apply Complex.ext <;> simp <;> ring_nf)

/-! ### Claim C3 counterexample: an exact relative angle of `-180°` -/

theorem cos_two_pi_div_three : Real.cos (2 * π / 3) = -(1 / 2) := by
  have h : (2 : ℝ) * π / 3 = π - π / 3 := by ring
  rw [h, Real.cos_pi_sub, Real.cos_pi_div_three]

theorem cos_four_pi_div_three : Real.cos (4 * π / 3) = -(1 / 2) := by
  have h : (4 : ℝ) * π / 3 = π + π / 3 := by ring
  rw [h, Real.cos_add, Real.cos_pi, Real.sin_pi, Real.cos_pi_div_three]
  ring

theorem applyWindow_cs_u :
    applyWindow [0, -1, -1, 0] .hanning = [0, -(3/4), -(3/4), 0] := by
  unfold applyWindow
  rw [if_neg (by simp)]
  simp only [List.mapIdx_cons, List.mapIdx_nil, windowMult, List.length_cons, List.length_nil]
  norm_num
  rw [cos_two_pi_div_three, show (2:ℝ) * π * 2 / 3 = 4 * π / 3 by ring, cos_four_pi_div_three]
  norm_num

theorem applyWindow_cs_v :
    applyWindow [0, 1, 0, 0] .hanning = [0, 3/4, 0, 0] := by
  unfold applyWindow
  rw [if_neg (by simp)]
  simp only [List.mapIdx_cons, List.mapIdx_nil, windowMult, List.length_cons, List.length_nil]
  norm_num
  rw [cos_two_pi_div_three]
  norm_num

theorem atan2_zero_pos (x : ℝ) (hx : 0 < x) : atan2 0 x = 0 := by
  unfold atan2
  rw [if_pos hx]
  simp

theorem atan2_zero_neg (x : ℝ) (hx : x < 0) : atan2 0 x = π := by
  unfold atan2
  rw [if_neg (by linarith), if_pos hx, if_pos le_rfl]
  simp

theorem peakSearch_halfN_two (mags : List ℝ) : peakSearch mags 2 = (-1, 0) := by
  unfold peakSearch
  rw [show List.range 2 = [0, 1] from rfl]
  simp

theorem processPhase_angleRad_u :
    (processPhase 1000 4 "U" [0, -1, -1, 0]).angleRad = some π := by
  simp only [processPhase]
  rw [applyWindow_cs_u, fft_four]
  simp only [List.length_cons, List.length_nil]
  norm_num [peakSearch_halfN_two, List.getElem?_map, List.getElem?_range]
  exact atan2_zero_neg _ (by norm_num)

theorem processPhase_angleRad_v :
    (processPhase 1000 4 "V" [0, 1, 0, 0]).angleRad = some 0 := by
  simp only [processPhase]
  rw [applyWindow_cs_v, fft_four]
  simp only [List.length_cons, List.length_nil]
  norm_num [peakSearch_halfN_two, List.getElem?_map, List.getElem?_range]
  exact atan2_zero_pos _ (by norm_num)

theorem normalizeAngle_neg_pi : normalizeAngle (-π) = -180 := by
  have h1 : (-π) * 180 / π = -180 := by
    field_simp
    ring
  simp only [normalizeAngle, jsMod, h1]
  have h2 : rtrunc (-180 / 360) = 0 := by
    unfold rtrunc
    rw [if_neg (by norm_num)]
    rw [show (-180 : ℝ) / 360 = -(1/2) by norm_num]
    rw [Int.ceil_eq_iff]
    constructor <;> norm_num
  rw [h2]
  norm_num

/-- Four samples on which phase U's fundamental bin has negative real part
(raw angle `π`) while phase V's is positive (raw angle `0`); the relative
angle of phase V is then exactly `-π`, i.e. `-180°`. -/
noncomputable def angleWaveform : List Sample :=
  [⟨0, [("u", 0), ("v", 0)]⟩,
   ⟨1, [("u", -1), ("v", 1)]⟩,
   ⟨2, [("u", -1), ("v", 0)]⟩,
   ⟨3, [("u", 0), ("v", 0)]⟩]

/-- C3 counterexample: on `angleWaveform` the normalized angle of phase V
is exactly `-180`, which lies outside the claim's half-open interval
`(-180, 180]`. -/
theorem powerQuality_angle_hits_neg180 :
    ((calculatePowerQuality angleWaveform 1000 "u" "v").phases.getD 1
        defaultPhaseResult).angleDeg = some (-180) ∧
    ∀ a : ℝ, ((calculatePowerQuality angleWaveform 1000 "u" "v").phases.getD 1
        defaultPhaseResult).angleDeg = some a → ¬(-180 < a) := by
  have hU : angleWaveform.map (fun p => chVal p "u") = [0, -1, -1, 0] := by
    simp [angleWaveform, chVal]
  have hV : angleWaveform.map (fun p => chVal p "v") = [0, 1, 0, 0] := by
    simp [angleWaveform, chVal]
  have key : ((calculatePowerQuality angleWaveform 1000 "u" "v").phases.getD 1
      defaultPhaseResult).angleDeg = some (-180) := by
    simp only [calculatePowerQuality]
    rw [hU, hV]
    norm_num [List.getD_cons_succ, List.getD_cons_zero, jsSub,
      processPhase_angleRad_u, processPhase_angleRad_v, normalizeAngle_neg_pi]
  refine ⟨key, ?_⟩
  intro a ha
  rw [key] at ha
  obtain rfl : (-180 : ℝ) = a := Option.some_injective _ ha
  norm_num

/-! ### Claims C4 and C6: zero channels and the harmonic table -/

theorem jsDiv_zero_denom (a : ℝ) : jsDiv a 0 = none := by
  unfold jsDiv
  rw [if_pos rfl]

theorem getD_replicate_zeroC : ∀ (n i : ℕ), (List.replicate n (0 : ℂ)).getD i 0 = 0 := by
  intro n i
  rw [List.getD_eq_getElem?_getD, List.getElem?_replicate]
  split <;> rfl

theorem evens_replicate_and_odds_replicate {α : Type} (x : α) :
    ∀ n : ℕ, evens (List.replicate n x) = List.replicate ((n + 1) / 2) x ∧
      odds (List.replicate n x) = List.replicate (n / 2) x := by
  intro n
  induction n with
  | zero => constructor <;> rfl
  | succ n ih =>
    constructor
    · rw [List.replicate_succ, evens_cons, ih.2, ← List.replicate_succ]
      congr 1
      omega
    · rw [List.replicate_succ, odds_cons, ih.1]

/-- `fft` maps all-zero input to all-zero output (of the padded length). -/
theorem fft_replicate_zero_aux :
    ∀ (fuel m : ℕ), fftDepth m ≤ fuel →
      fft (List.replicate m (0 : ℝ)) =
        List.replicate (if m ≤ 1 then m else nextPow2 m) (0 : ℂ) := by
  intro fuel
  induction fuel with
  | zero =>
    intro m h
    exfalso
    unfold fftDepth at h
    split at h <;> omega
  | succ fuel ih =>
    intro m h
    have hlen : (List.replicate m (0 : ℝ)).length = m := List.length_replicate m 0
    by_cases h1 : m ≤ 1
    · rw [fft, dif_pos (by rw [hlen]; exact h1), if_pos h1, List.map_replicate]
      norm_num
    · rw [if_neg h1]
      by_cases h2 : m &&& (m - 1) ≠ 0
      · -- not a power of two: padding branch
        have hpad : List.replicate m (0 : ℝ) ++
            List.replicate (nextPow2 (List.replicate m (0:ℝ)).length -
              (List.replicate m (0:ℝ)).length) 0 = List.replicate (nextPow2 m) 0 := by
          rw [hlen, ← List.replicate_add]
          congr 1
          have := le_nextPow2 m
          omega
        have hdep : fftDepth (nextPow2 m) ≤ fuel := by
          unfold fftDepth at h ⊢
          unfold nextPow2
          rw [if_pos (land_pred_pow2 _), Nat.clog_pow 2 _ one_lt_two, if_neg h2] at *
          omega
        have hN1 : ¬ (nextPow2 m ≤ 1) := by
          have := le_nextPow2 m
          omega
        have hNfix : nextPow2 (nextPow2 m) = nextPow2 m := nextPow2_pow _
        rw [fft, dif_neg (by rw [hlen]; exact h1), dif_pos (by rw [hlen]; exact h2), hpad,
          ih (nextPow2 m) hdep, if_neg hN1, hNfix]
      · rw [not_not] at h2
        obtain ⟨t, ht⟩ := (land_pred_eq_zero_iff (by omega)).1 h2
        have ht1 : 1 ≤ t := by
          rcases Nat.eq_zero_or_pos t with rfl | hp
          · omega
          · exact hp
        have hpow2 : 2 ^ t = 2 * 2 ^ (t - 1) := by
          conv_lhs => rw [show t = 1 + (t - 1) by omega]
          rw [pow_add, pow_one]
        have hhalf : m / 2 = 2 ^ (t - 1) := by omega
        have hev : evens (List.replicate m (0:ℝ)) = List.replicate (m / 2) 0 := by
          rw [(evens_replicate_and_odds_replicate (0:ℝ) m).1]
          congr 1
          omega
        have hod : odds (List.replicate m (0:ℝ)) = List.replicate (m / 2) 0 :=
          (evens_replicate_and_odds_replicate (0:ℝ) m).2
        have hdep2 : fftDepth (m / 2) ≤ fuel := by
          unfold fftDepth at h ⊢
          rw [hhalf, if_pos (land_pred_pow2 _), Nat.clog_pow 2 _ one_lt_two]
          rw [ht, if_pos (land_pred_pow2 _), Nat.clog_pow 2 _ one_lt_two] at h
          omega
        have hsub : fft (List.replicate (m / 2) (0:ℝ)) = List.replicate (m / 2) (0:ℂ) := by
          rw [ih (m / 2) hdep2]
          split
          · rfl
          · rw [hhalf, nextPow2_pow]
        have hfix : nextPow2 m = m := by rw [ht]; exact nextPow2_pow t
        rw [fft, dif_neg (by rw [hlen]; exact h1), dif_neg (by rw [hlen]; exact not_not.2 h2),
          hev, hod, hsub, hlen]
        rw [hfix]
        refine List.eq_replicate_iff.2 ⟨by simp, ?_⟩
        intro b hb
        obtain ⟨k, _, rfl⟩ := List.mem_map.1 hb
        split <;> simp [getD_replicate_zeroC]

theorem fft_replicate_zero (m : ℕ) :
    fft (List.replicate m (0 : ℝ)) =
      List.replicate (if m ≤ 1 then m else nextPow2 m) (0 : ℂ) :=
  fft_replicate_zero_aux (fftDepth m) m le_rfl

theorem getD_replicate_zeroR : ∀ (n i : ℕ), (List.replicate n (0 : ℝ)).getD i 0 = 0 := by
  intro n i
  rw [List.getD_eq_getElem?_getD, List.getElem?_replicate]
  split <;> rfl

/-- On an all-zero spectrum with at least three bins, the fundamental
search settles at `(maxMag, peakIndex) = (0, 2)`: bin 2 is the first with
index `> 1`, its magnitude `0` beats the seed `-1`, and no later zero
beats it. -/
theorem peakSearch_zeros (h : ℕ) (hh : 3 ≤ h) :
    peakSearch (List.replicate h 0) h = (0, 2) := by
  unfold peakSearch
  have hsplit : List.range h = [0, 1, 2] ++ List.range' 3 (h - 3) := by
    rw [List.range_eq_range']
    rw [show [0, 1, 2] = List.range' 0 3 from rfl]
    rw [List.range'_append_1]
    congr 1
    omega
  rw [hsplit, List.foldl_append]
  have hstart :
      ([0, 1, 2] : List ℕ).foldl
        (fun acc i =>
          if 1 < i ∧ acc.1 < (List.replicate h (0:ℝ)).getD i 0 then
            ((List.replicate h (0:ℝ)).getD i 0, i)
          else acc) (-1, 0) = (0, 2) := by
    simp only [List.foldl_cons, List.foldl_nil, getD_replicate_zeroR]
    norm_num
  rw [hstart]
  have htail : ∀ (l : List ℕ),
      l.foldl
        (fun acc i =>
          if 1 < i ∧ acc.1 < (List.replicate h (0:ℝ)).getD i 0 then
            ((List.replicate h (0:ℝ)).getD i 0, i)
          else acc) ((0 : ℝ), 2) = (0, 2) := by
    intro l
    induction l with
    | nil => rfl
    | cons a t ih =>
      rw [List.foldl_cons, if_neg]
      · exact ih
      · rintro ⟨-, hlt⟩
        rw [getD_replicate_zeroR] at hlt
        exact absurd hlt (by norm_num)
  exact htail _

/-- On an identically-zero phase of at least 5 samples, the fundamental
magnitude is `0` and every THD / percentage division is by zero: the
source produces `NaN` (modelled `none`), not `0`. -/
theorem processPhase_zero (rate : ℝ) (n0 : ℕ) (id : String) (m : ℕ) (hm : 5 ≤ m) :
    (processPhase rate n0 id (List.replicate m 0)).thd = none ∧
    ∀ hmc ∈ (processPhase rate n0 id (List.replicate m 0)).harmonics,
      hmc.percentage = none := by
  have hm1 : ¬ (m ≤ 1) := by omega
  have hL : fft (applyWindow (List.replicate m 0) .hanning) =
      List.replicate (nextPow2 m) 0 := by
    rw [applyWindow_zero, fft_replicate_zero, if_neg hm1]
  have hL8 : 8 ≤ nextPow2 m := by
    obtain ⟨k, hk⟩ : ∃ k, nextPow2 m = 2 ^ k := ⟨Nat.clog 2 m, rfl⟩
    have h5 : 5 ≤ nextPow2 m := le_trans hm (le_nextPow2 m)
    have hk3 : 3 ≤ k := by
      by_contra hc
      interval_cases k <;> omega
    calc (8 : ℕ) = 2 ^ 3 := rfl
    _ ≤ 2 ^ k := Nat.pow_le_pow_right (by norm_num) hk3
    _ = nextPow2 m := hk.symm
  have hmagzero : ∀ (L halfN : ℕ), (List.range halfN).map (fun i =>
      Real.sqrt (((List.replicate L (0:ℂ)).getD i 0).re * ((List.replicate L (0:ℂ)).getD i 0).re
        + ((List.replicate L (0:ℂ)).getD i 0).im * ((List.replicate L (0:ℂ)).getD i 0).im)
        * (2 / (L : ℝ))) = List.replicate halfN 0 := by
    intro L halfN
    refine List.eq_replicate_iff.2 ⟨by simp, ?_⟩
    intro b hb
    obtain ⟨i, _, rfl⟩ := List.mem_map.1 hb
    rw [getD_replicate_zeroC]
    norm_num
  simp only [processPhase]
  rw [hL, List.length_replicate, hmagzero,
    peakSearch_zeros (nextPow2 m / 2) (by omega)]
  constructor
  · simp [jsDiv_zero_denom]
  · intro hmc hmem
    simp only [List.mem_filterMap] at hmem
    obtain ⟨o, _, ho⟩ := hmem
    by_cases hc : (harmonicSearch (List.replicate (nextPow2 m / 2) 0)
        (nextPow2 m / 2) ((0, 2).2 * o)).2 < nextPow2 m / 2
    · rw [if_pos hc] at ho
      obtain rfl := Option.some_injective _ ho
      simp [jsDiv_zero_denom]
    · rw [if_neg hc] at ho
      exact absurd ho (by simp)

theorem map_chVal_zero (w : List Sample) (ch : String) (h : ∀ p ∈ w, chVal p ch = 0) :
    w.map (fun p => chVal p ch) = List.replicate w.length 0 := by
  refine List.eq_replicate_iff.2 ⟨by simp, ?_⟩
  intro b hb
  obtain ⟨p, hp, rfl⟩ := List.mem_map.1 hb
  exact h p hp

theorem zipWith_negsub_zero (n : ℕ) :
    List.zipWith (fun a b => -a - b) (List.replicate n (0:ℝ)) (List.replicate n 0) =
      List.replicate n 0 := by
  rw [List.zipWith_replicate]
  norm_num

/-- C4 (amended): the source does **not** guard the THD/percentage
divisions by the fundamental magnitude.  For every waveform of at least 5
samples whose selected channels are identically zero, the fundamental
magnitude of every phase is 0, so each phase's THD and every recorded
harmonic's percentage-of-fundamental are the non-finite JS value `NaN`
(modelled `none`) rather than the claimed `0`.  (Only the unbalance ratio
carries an explicit zero-denominator guard in the source.) -/
theorem powerQuality_zero_channels_thd_nan (w : List Sample) (rate : ℝ) (u v : String)
    (h5 : 5 ≤ w.length) (hU : ∀ p ∈ w, chVal p u = 0) (hV : ∀ p ∈ w, chVal p v = 0) :
    ∀ ph ∈ (calculatePowerQuality w rate u v).phases,
      ph.thd = none ∧ ∀ hmc ∈ ph.harmonics, hmc.percentage = none := by
  simp only [calculatePowerQuality]
  rw [map_chVal_zero w u hU, map_chVal_zero w v hV, zipWith_negsub_zero,
    List.length_replicate]
  intro ph hph
  rcases List.mem_cons.1 hph with rfl | hph
  · exact processPhase_zero rate w.length "U" w.length h5
  rcases List.mem_cons.1 hph with rfl | hph
  · exact processPhase_zero rate w.length "V" w.length h5
  rcases List.mem_cons.1 hph with rfl | hph
  · exact processPhase_zero rate w.length "W" w.length h5
  · exact absurd hph (List.not_mem_nil ph)

theorem powerQuality_zero_channels_thd_nan_witness :
    (5 ≤ (List.replicate 5 (⟨0, []⟩ : Sample)).length) ∧
    (∀ p ∈ List.replicate 5 (⟨0, []⟩ : Sample), chVal p "u" = 0) ∧
    (∀ p ∈ List.replicate 5 (⟨0, []⟩ : Sample), chVal p "v" = 0) ∧
    ∀ ph ∈ (calculatePowerQuality (List.replicate 5 ⟨0, []⟩) 1000 "u" "v").phases,
      ph.thd = none ∧ ∀ hmc ∈ ph.harmonics, hmc.percentage = none := by
  refine ⟨by simp, ?_, ?_, ?_⟩
  · intro p hp
    rw [List.eq_of_mem_replicate hp]
    simp [chVal]
  · intro p hp
    rw [List.eq_of_mem_replicate hp]
    simp [chVal]
  · exact powerQuality_zero_channels_thd_nan (List.replicate 5 ⟨0, []⟩) 1000 "u" "v"
      (by simp)
      (fun p hp => by rw [List.eq_of_mem_replicate hp]; simp [chVal])
      (fun p hp => by rw [List.eq_of_mem_replicate hp]; simp [chVal])

/-- C4 counterexample: five all-zero samples; phase U's THD is the
non-finite marker `none` (JS `NaN`), not the claimed `0`. -/
theorem powerQuality_zero_channels_thd_not_zero :
    ((calculatePowerQuality (List.replicate 5 ⟨0, []⟩) 1000 "u" "v").phases.getD 0
        defaultPhaseResult).thd = none ∧
    ((calculatePowerQuality (List.replicate 5 ⟨0, []⟩) 1000 "u" "v").phases.getD 0
        defaultPhaseResult).thd ≠ some 0 := by
  have hz : ∀ ch : String,
      (List.replicate 5 (⟨0, []⟩ : Sample)).map (fun p => chVal p ch) =
        List.replicate 5 0 := by
    intro ch
    rw [List.map_replicate]
    simp [chVal]
  have key : ((calculatePowerQuality (List.replicate 5 ⟨0, []⟩) 1000 "u" "v").phases.getD 0
      defaultPhaseResult).thd = none := by
    simp only [calculatePowerQuality]
    rw [hz "u", hz "v", zipWith_negsub_zero, List.length_replicate]
    simp only [List.getD_cons_zero]
    exact (processPhase_zero 1000 5 "U" 5 (by norm_num)).1
  exact ⟨key, by rw [key]; simp⟩

theorem filterMap_order_eq_filter (f : ℕ → Option HarmonicInfo)
    (hf : ∀ o hm, f o = some hm → hm.order = o) :
    ∀ l : List ℕ,
      ((l.filterMap f).map (fun h => h.order)) = l.filter (fun o => (f o).isSome) := by
  intro l
  induction l with
  | nil => rfl
  | cons o t ih =>
    cases hfo : f o with
    | none =>
      rw [List.filterMap_cons_none hfo, ih, List.filter_cons_of_neg (by simp [hfo])]
    | some hm =>
      rw [List.filterMap_cons_some hfo, List.map_cons, ih,
        List.filter_cons_of_pos (by simp [hfo]), hf o hm hfo]

theorem harmonics_generic (f : ℕ → Option HarmonicInfo)
    (hf : ∀ o hm, f o = some hm → hm.order = o) :
    List.Chain' (· < ·) (((List.range' 1 15).filterMap f).map (fun h => h.order)) ∧
    ∀ hmc ∈ (List.range' 1 15).filterMap f, 1 ≤ hmc.order ∧ hmc.order ≤ 15 := by
  constructor
  · rw [filterMap_order_eq_filter f hf]
    exact (List.Pairwise.sublist (List.filter_sublist _)
      (List.pairwise_lt_range' 1 15)).chain'
  · intro hmc hmem
    obtain ⟨o, ho, hfo⟩ := List.mem_filterMap.1 hmem
    rw [hf o hmc hfo]
    have := List.mem_range'_1.1 ho
    omega

theorem processPhase_harmonics_spec (rate : ℝ) (n0 : ℕ) (id : String) (data : List ℝ) :
    List.Chain' (· < ·) ((processPhase rate n0 id data).harmonics.map (fun h => h.order)) ∧
    ∀ hmc ∈ (processPhase rate n0 id data).harmonics,
      1 ≤ hmc.order ∧ hmc.order ≤ 15 := by
  simp only [processPhase]
  refine harmonics_generic _ ?_
  intro o hm h
  simp only [] at h
  split at h
  · cases h
    rfl
  · exact absurd h (by simp)

/-- C6 (amended): in every power-quality result the `order` fields of each
phase's harmonic list are strictly increasing and each lies in `1 … 15`
(an ascending subsequence of `1, …, 15` with no duplicates); an order
whose selected bin falls outside the computed half-spectrum is omitted,
so the list need not be the complete sequence `1 … 15` — for a one-sample
waveform it is empty (counterexample below). -/
theorem powerQuality_harmonic_orders (w : List Sample) (rate : ℝ) (u v : String)
    (_hw : w ≠ []) :
    ∀ ph ∈ (calculatePowerQuality w rate u v).phases,
      List.Chain' (· < ·) (ph.harmonics.map (fun h => h.order)) ∧
      ∀ hmc ∈ ph.harmonics, 1 ≤ hmc.order ∧ hmc.order ≤ 15 := by
  simp only [calculatePowerQuality]
  intro ph hph
  rcases List.mem_cons.1 hph with rfl | hph
  · exact processPhase_harmonics_spec rate (w.map (fun p => chVal p u)).length "U"
      (w.map (fun p => chVal p u))
  rcases List.mem_cons.1 hph with rfl | hph
  · exact processPhase_harmonics_spec rate (w.map (fun p => chVal p u)).length "V"
      (w.map (fun p => chVal p v))
  rcases List.mem_cons.1 hph with rfl | hph
  · exact processPhase_harmonics_spec rate (w.map (fun p => chVal p u)).length "W"
      (List.zipWith (fun a b => -a - b) (w.map (fun p => chVal p u))
        (w.map (fun p => chVal p v)))
  · exact absurd hph (List.not_mem_nil ph)

theorem powerQuality_harmonic_orders_witness :
    (([⟨0, []⟩] : List Sample) ≠ []) ∧
    ∀ ph ∈ (calculatePowerQuality [⟨0, []⟩] 1 "a" "b").phases,
      List.Chain' (· < ·) (ph.harmonics.map (fun h => h.order)) ∧
      ∀ hmc ∈ ph.harmonics, 1 ≤ hmc.order ∧ hmc.order ≤ 15 :=
  ⟨by simp, powerQuality_harmonic_orders [⟨0, []⟩] 1 "a" "b" (by simp)⟩

theorem processPhase_singleton_harmonics (rate : ℝ) (n0 : ℕ) (id : String) (x : ℝ) :
    (processPhase rate n0 id [x]).harmonics = [] := by
  have hw : applyWindow [x] .hanning = [x * windowMult .hanning 1 0] := by
    unfold applyWindow
    rw [if_neg (by simp)]
    simp
  simp only [processPhase]
  rw [hw, fft_one]
  simp only [List.length_cons, List.length_nil]
  rw [List.filterMap_eq_nil_iff]
  intro o _
  rw [if_neg]
  simp

/-- C6 counterexample: on a one-sample waveform the half-spectrum is
empty, so no harmonic is ever pushed: every phase's harmonic list is
empty instead of carrying orders `1 … 15`. -/
theorem powerQuality_singleton_harmonics_empty :
    (calculatePowerQuality [⟨0, []⟩] 1000 "u" "v").phases.map (fun p => p.harmonics) =
      [[], [], []] ∧
    ((calculatePowerQuality [⟨0, []⟩] 1000 "u" "v").phases.getD 0
        defaultPhaseResult).harmonics.map (fun h => h.order) ≠ List.range' 1 15 := by
  have hd : ∀ ch : String, ([⟨0, []⟩] : List Sample).map (fun p => chVal p ch) = [0] := by
    intro ch
    simp [chVal]
  have hzip : List.zipWith (fun a b => -a - b) ([0] : List ℝ) [0] = [(0 : ℝ)] := by
    norm_num
  constructor
  · simp only [calculatePowerQuality]
    rw [hd "u", hd "v", hzip]
    simp only [List.map_cons, List.map_nil, List.length_cons, List.length_nil]
    rw [processPhase_singleton_harmonics, processPhase_singleton_harmonics,
      processPhase_singleton_harmonics]
  · simp only [calculatePowerQuality]
    rw [hd "u", hd "v", hzip]
    simp only [List.getD_cons_zero, List.length_cons, List.length_nil]
    rw [processPhase_singleton_harmonics]
    intro hcon
    have := congrArg List.length hcon
    simp [List.length_range'] at this

/-! ## The CSV parser (source `parseOscilloscopeCsv`)

Modelled over exact rationals `ℚ` (`parseFloat` cannot overflow here and
decimal literals are exact).  Strings are processed through `List Char`;
the two regexes of the source are implemented as explicit leftmost-match
scanners whose alternative order follows the JS engine (`Data` before
`Vert` before the empty option, `Unit` before `Uint`; the greedy classes
`\s*`, `[\d.]+`, `[a-zA-ZμµΩ]+`, `[kM]?` never need to backtrack against
what follows them, so greedy matching is exact).  `parseFloat` of a
non-numeric capture is JS `NaN`; where the source stores it into
`samplingRateHz` the model takes `0` (theorems about synthesized
timestamps therefore hypothesise a positive rate). -/

def isWsChar (c : Char) : Bool := c == ' ' || c == '\t' || c == '\n' || c == '\r'

def isDigitDot (c : Char) : Bool := c.isDigit || c == '.'

/-- The character class `[a-zA-ZμµΩ]` under the `i` flag (case folding
adds `ω`). -/
def isUnitChar (c : Char) : Bool := c.isAlpha || c == 'μ' || c == 'µ' || c == 'Ω' || c == 'ω'

def isAlphaWsChar (c : Char) : Bool := c.isAlpha || isWsChar c

def digitsVal (l : List Char) : ℕ :=
  l.foldl (fun acc c => 10 * acc + (c.toNat - '0'.toNat)) 0

/-- JS `parseFloat`: skip leading whitespace, optional sign, decimal
digits with optional fraction and exponent, longest valid prefix;
`none` when no numeric prefix exists (JS `NaN`).  `Infinity` and
hexadecimal forms are not modelled (never produced by the claims'
inputs). -/
def parseJsFloat (s : String) : Option ℚ :=
  let cs := s.toList.dropWhile (fun c => isWsChar c)
  let sign : ℚ := match cs with
    | '-' :: _ => -1
    | _ => 1
  let cs1 : List Char := match cs with
    | '-' :: t => t
    | '+' :: t => t
    | _ => cs
  let intDigits := cs1.takeWhile (fun c => c.isDigit)
  let cs2 := cs1.dropWhile (fun c => c.isDigit)
  let fracDigits : List Char := match cs2 with
    | '.' :: t => t.takeWhile (fun c => c.isDigit)
    | _ => []
  let cs3 : List Char := match cs2 with
    | '.' :: t => t.dropWhile (fun c => c.isDigit)
    | _ => cs2
  if intDigits = [] ∧ fracDigits = [] then none
  else
    let mantissa : ℚ :=
      (digitsVal intDigits : ℚ) + (digitsVal fracDigits : ℚ) / 10 ^ fracDigits.length
    let expVal : ℤ := match cs3 with
      | c :: t =>
        if c == 'e' || c == 'E' then
          let esign : ℤ := match t with
            | '-' :: _ => -1
            | _ => 1
          let t1 : List Char := match t with
            | '-' :: t' => t'
            | '+' :: t' => t'
            | _ => t
          let eDigits := t1.takeWhile (fun c => c.isDigit)
          if eDigits = [] then 0 else esign * digitsVal eDigits
        else 0
      | [] => 0
    some (sign * mantissa * (10 : ℚ) ^ expVal)

/-- JS `String.prototype.split` against a one-character-class separator:
split at every matching character, keeping empty segments. -/
def splitChars (p : Char → Bool) : List Char → List (List Char)
  | [] => [[]]
  | c :: t =>
    if p c then [] :: splitChars p t
    else
      match splitChars p t with
      | [] => [[c]]
      | s :: rest => (c :: s) :: rest

def splitStr (p : Char → Bool) (s : String) : List String :=
  (splitChars p s.toList).map String.mk

def lowerStr (s : String) : String := String.mk (s.toList.map Char.toLower)

def listContainsSub (pat : List Char) : List Char → Bool
  | [] => List.isPrefixOf pat []
  | c :: t => List.isPrefixOf pat (c :: t) || listContainsSub pat t

/-- JS `includes`. -/
def containsStr (s pat : String) : Bool := listContainsSub pat.toList s.toList

/-- Case-insensitive literal prefix strip (`pat` given in lowercase). -/
def stripPrefixCI : List Char → List Char → Option (List Char)
  | [], l => some l
  | _ :: _, [] => none
  | p :: ps, c :: cs => if c.toLower = p then stripPrefixCI ps cs else none

/-- `\s* (?:Unit|Uint) \s* [:=] \s* ([a-zA-ZμµΩ]+)` (after the optional
`Data`/`Vert` prefix), returning the capture. -/
def matchUnitTail (l : List Char) : Option (List Char) :=
  let l1 := l.dropWhile (fun c => isWsChar c)
  match l1 with
  | c :: t =>
    if c == ':' || c == '=' then
      let t1 := t.dropWhile (fun c => isWsChar c)
      let cap := t1.takeWhile (fun c => isUnitChar c)
      if cap = [] then none else some cap
    else none
  | [] => none

def matchUnitKw (l : List Char) : Option (List Char) :=
  let l1 := l.dropWhile (fun c => isWsChar c)
  match stripPrefixCI "unit".toList l1 with
  | some l2 => matchUnitTail l2
  | none =>
    match stripPrefixCI "uint".toList l1 with
    | some l2 => matchUnitTail l2
    | none => none

def matchUnitAt (l : List Char) : Option (List Char) :=
  match stripPrefixCI "data".toList l with
  | some l1 =>
    match matchUnitKw l1 with
    | some r => some r
    | none => matchUnitRest l
  | none => matchUnitRest l
where
  matchUnitRest (l : List Char) : Option (List Char) :=
    match stripPrefixCI "vert".toList l with
    | some l1 =>
      match matchUnitKw l1 with
      | some r => some r
      | none => matchUnitKw l
    | none => matchUnitKw l

def scanUnit : List Char → Option (List Char)
  | [] => matchUnitAt []
  | c :: t =>
    match matchUnitAt (c :: t) with
    | some r => some r
    | none => scanUnit t

/-- `Sampling\s*Rate\s*[:=]\s*([\d.]+)\s*([kM]?Sa\/s)` (case-insensitive),
returning both captures. -/
def matchRateAt (l : List Char) : Option (List Char × List Char) :=
  match stripPrefixCI "sampling".toList l with
  | none => none
  | some l1 =>
    match stripPrefixCI "rate".toList (l1.dropWhile (fun c => isWsChar c)) with
    | none => none
    | some l2 =>
      match l2.dropWhile (fun c => isWsChar c) with
      | [] => none
      | c :: t =>
        if c == ':' || c == '=' then
          let t1 := t.dropWhile (fun c => isWsChar c)
          let cap1 := t1.takeWhile (fun c => isDigitDot c)
          if cap1 = [] then none
          else
            let t3 := (t1.dropWhile (fun c => isDigitDot c)).dropWhile (fun c => isWsChar c)
            match t3 with
            | [] => none
            | k :: rest =>
              if (k.toLower == 'k' || k.toLower == 'm') &&
                  (stripPrefixCI "sa/s".toList rest).isSome then
                some (cap1, k :: rest.take 4)
              else if (stripPrefixCI "sa/s".toList t3).isSome then
                some (cap1, t3.take 4)
              else none
        else none

def scanRate : List Char → Option (List Char × List Char)
  | [] => matchRateAt []
  | c :: t =>
    match matchRateAt (c :: t) with
    | some r => some r
    | none => scanRate t

/-- `key.match(/([a-zA-Z\s]+)$/)`: the maximal (nonempty) suffix of
letters and whitespace. -/
def keyTailMatch (s : String) : Option String :=
  let rev := s.toList.reverse.takeWhile (fun c => isAlphaWsChar c)
  if rev = [] then none else some (String.mk rev.reverse)

structure QPoint where
  time : ℚ
  channels : List ℚ
deriving DecidableEq

structure QMetadata where
  timeBase : String
  samplingRate : String
  samplingRateHz : ℚ
  amplitudeScale : String
  points : ℕ
  yUnit : String
  rawHeader : List (String × String)
  channels : List String
deriving DecidableEq

structure HeaderScanState where
  rawHeader : List (String × String)
  dataStartIndex : ℕ
  headerLineIndex : Option ℕ
deriving DecidableEq

/-- `text.split(/\r?\n/)`: split at `\n`, then strip one trailing `\r`
from each piece (a `\r` not followed by `\n` is not a separator). -/
def splitLines (text : String) : List String :=
  (splitChars (fun c => c == '\n') text.toList).map
    (fun l => String.mk (if l.getLast? = some '\r' then l.dropLast else l))

def headerChunkOf (lines : List String) : String :=
  String.intercalate "\n" (lines.take 50)

def yUnitOf (lines : List String) : String :=
  match scanUnit (headerChunkOf lines).toList with
  | some cap => (String.mk cap).trim
  | none => "V"

def samplingRateHzOf (lines : List String) : ℚ :=
  match scanRate (headerChunkOf lines).toList with
  | none => 1000
  | some (cap1, cap2) =>
    let val := (parseJsFloat (String.mk cap1)).getD 0
    let unitLower := lowerStr (String.mk cap2)
    if containsStr unitLower "ksa" then val * 1000
    else if containsStr unitLower "msa" then val * 1000000
    else val

/-- JS object assignment `rawHeader[key] = val`: overwrite in place or
append (insertion order preserved). -/
def insertHeader (m : List (String × String)) (k v : String) : List (String × String) :=
  if m.any (fun q => q.1 == k) then m.map (fun q => if q.1 == k then (k, v) else q)
  else m ++ [(k, v)]

def firstIsDigit (s : String) : Bool :=
  match s.toList with
  | c :: _ => c.isDigit
  | [] => false

/-- One iteration of the `lines.slice(0, 50).forEach` header loop. -/
def headerStep (st : HeaderScanState) (iv : ℕ × String) : HeaderScanState :=
  let i := iv.1
  let trimLine := iv.2.trim
  if trimLine = "" then st
  else if firstIsDigit trimLine && trimLine.contains ',' then
    if st.dataStartIndex = 0 then { st with dataStartIndex := i } else st
  else if (lowerStr trimLine).startsWith "time" && trimLine.contains ',' then
    { st with headerLineIndex := some i, dataStartIndex := i + 1 }
  else
    let parts := splitStr (fun c => c == ':' || c == '=') trimLine
    if 2 ≤ parts.length then
      let key0 := (parts.getD 0 "").trim
      let key := match keyTailMatch key0 with
        | some k => k.trim
        | none => key0
      let val := (String.intercalate ":" (parts.drop 1)).trim
      if key ≠ "" ∧ val ≠ "" then { st with rawHeader := insertHeader st.rawHeader key val }
      else st
    else st

def headerScan (lines : List String) : HeaderScanState :=
  ((lines.take 50).enum).foldl headerStep ⟨[], 0, none⟩

/-- The fallback search for the data start when the header loop found
none. -/
def fallbackScan (lines : List String) (st : HeaderScanState) : HeaderScanState :=
  if st.dataStartIndex = 0 then
    match lines.enum.find? (fun iv =>
        iv.2.contains ',' &&
          (parseJsFloat ((splitStr (fun c => c == ',') iv.2).getD 0 "")).isSome) with
    | some (i, _) =>
      { st with
        dataStartIndex := i
        headerLineIndex :=
          (if 0 < i ∧ containsStr (lowerStr (lines.getD (i - 1) "")) "time" then some (i - 1)
          else st.headerLineIndex) }
    | none => st
  else st

/-- Time-column determination (`-1` means "no time column", as in the
source's sentinel).  `lines.length - 5` uses truncated `ℕ` subtraction,
which agrees with the JS signed comparison because `dataStartIndex ≥ 0`. -/
def timeColumnIndexOf (lines : List String) (st : HeaderScanState) : ℤ :=
  let fromHeader : ℤ :=
    match st.headerLineIndex with
    | some hi =>
      let headerCols := (splitStr (fun c => c == ',') (lines.getD hi "")).map
        (fun s => lowerStr s.trim)
      match headerCols.findIdx? (fun c =>
          containsStr c "time" || c == "s" || c == "second") with
      | some idx => (idx : ℤ)
      | none => -1
    | none => -1
  if fromHeader = -1 ∧ st.dataStartIndex < lines.length - 5 then
    let fieldOf := fun (j : ℕ) =>
      parseJsFloat ((splitStr (fun c => c == ',') (lines.getD j "")).getD 0 "")
    match fieldOf st.dataStartIndex, fieldOf (st.dataStartIndex + 1),
        fieldOf (min (st.dataStartIndex + 20) (lines.length - 1)) with
    | some a, some b, some c => if a < b ∧ b < c then 0 else -1
    | _, _, _ => -1
  else fromHeader

/-- One iteration of the data loop, carrying `(waveform, channelCount)`. -/
def dataStep (samplingRateHz : ℚ) (timeCol : ℤ) (st : List QPoint × ℕ) (l : String) :
    List QPoint × ℕ :=
  let line := l.trim
  if line = "" then st
  else
    let numericParts := (splitStr (fun c => c == ',') line).filterMap parseJsFloat
    if numericParts = [] then st
    else
      let timeSeconds : ℚ :=
        if timeCol ≠ -1 ∧ timeCol < (numericParts.length : ℤ) then
          numericParts.getD timeCol.toNat 0
        else (st.1.length : ℚ) * (1 / samplingRateHz)
      let channels := (numericParts.enum.filter (fun q => (q.1 : ℤ) ≠ timeCol)).map
        (fun q => q.2)
      (st.1 ++ [⟨timeSeconds, channels⟩], max st.2 channels.length)

def parseDataRows (lines : List String) (dataStart : ℕ) (samplingRateHz : ℚ)
    (timeCol : ℤ) : List QPoint × ℕ :=
  (lines.drop dataStart).foldl (dataStep samplingRateHz timeCol) ([], 0)

def lookupHeader (m : List (String × String)) (k : String) : Option String :=
  (m.find? (fun q => q.1 == k)).map (fun q => q.2)

/-- Display-only stand-in for the JS template `` `${samplingRateHz} Hz` ``
(JS number formatting is not modelled; no claim inspects this field). -/
def qToDisplay (q : ℚ) : String :=
  if q.den = 1 then toString q.num ++ " Hz" else toString q.num ++ "/" ++ toString q.den ++ " Hz"

/-- The time column computed by `parseOscilloscopeCsv` on `text`
(`-1` = none detected). -/
def detectTimeColumn (text : String) : ℤ :=
  let lines := splitLines text
  timeColumnIndexOf lines (fallbackScan lines (headerScan lines))

def parseOscilloscopeCsv (text : String) : List QPoint × QMetadata :=
  let lines := splitLines text
  let samplingRateHz := samplingRateHzOf lines
  let yUnit := yUnitOf lines
  let st := fallbackScan lines (headerScan lines)
  let timeCol := timeColumnIndexOf lines st
  let parsed := parseDataRows lines st.dataStartIndex samplingRateHz timeCol
  let channels := (List.range parsed.2).map (fun i => "ch" ++ toString i)
  (parsed.1,
   { timeBase := (lookupHeader st.rawHeader "Time Base").getD "Unknown",
     samplingRate := (lookupHeader st.rawHeader "Sampling Rate").getD
       (qToDisplay samplingRateHz),
     samplingRateHz := samplingRateHz,
     amplitudeScale := (lookupHeader st.rawHeader "Amplitude").getD "Unknown",
     points := parsed.1.length,
     yUnit := yUnit,
     rawHeader := st.rawHeader,
     channels := channels })

/-! ### Claim C1: the minimal synthetic input -/

set_option maxRecDepth 100000

def c1Input : String := "Sampling Rate:1kSa/s\nData Uint:mv\n0.1,0.2\n0.3,0.4\n"

/-- C1 counterexample: on the minimal synthetic input no time column is
detected (the heuristic needs at least 6 lines), so **both** numeric
fields of each row become channels: the channel list is
`["ch0", "ch1"]`, not the claimed `["ch0"]`. -/
theorem parse_minimal_channels_not_single :
    (parseOscilloscopeCsv c1Input).2.channels = ["ch0", "ch1"] ∧
    (parseOscilloscopeCsv c1Input).2.channels ≠ ["ch0"] := by
  with_unfolding_all decide

/-- C1 (amended): on the minimal synthetic input the parser yields
`samplingRateHz = 1000`, `yUnit = "mv"`, exactly 2 samples with
timestamps `[0, 0.001]`, and channel list `["ch0", "ch1"]` (both numeric
fields of each row are channels because no time column is detected). -/
theorem parse_minimal_input_fields :
    (parseOscilloscopeCsv c1Input).2.samplingRateHz = 1000 ∧
    (parseOscilloscopeCsv c1Input).2.yUnit = "mv" ∧
    (parseOscilloscopeCsv c1Input).1.length = 2 ∧
    (parseOscilloscopeCsv c1Input).1.map (fun p => p.time) = [0, 1/1000] ∧
    (parseOscilloscopeCsv c1Input).2.channels = ["ch0", "ch1"] := by
  with_unfolding_all decide

/-! ### Claim C7: monotonicity of timestamps -/

/-- C7 counterexample: with a recognised `time` header column, timestamps
are copied verbatim from the file; a file with a decreasing time column
yields decreasing timestamps. -/
theorem parse_time_column_not_monotone :
    (parseOscilloscopeCsv "time,a\n5,1\n1,2\n").1.map (fun p => p.time) = [5, 1] ∧
    ¬ List.Chain' (· ≤ ·)
        ((parseOscilloscopeCsv "time,a\n5,1\n1,2\n").1.map (fun p => p.time)) := by
  have h : (parseOscilloscopeCsv "time,a\n5,1\n1,2\n").1.map (fun p => p.time) = [5, 1] := by
    with_unfolding_all decide
  refine ⟨h, ?_⟩
  rw [h]
  rw [List.chain'_cons]
  rintro ⟨h51, -⟩
  norm_num at h51

/-- The synthesized timestamp sequence `k / rate` for `k = 0, …, n-1`. -/
def timeRamp (rate : ℚ) (n : ℕ) : List ℚ :=
  (List.range n).map (fun (k : ℕ) => (k : ℚ) * (1 / rate))

theorem dataStep_fold_times (rate : ℚ) :
    ∀ (ls : List String) (acc : List QPoint × ℕ),
      acc.1.map (fun p => p.time) = timeRamp rate acc.1.length →
      (ls.foldl (dataStep rate (-1)) acc).1.map (fun p => p.time) =
        timeRamp rate (ls.foldl (dataStep rate (-1)) acc).1.length := by
  intro ls
  induction ls with
  | nil => intro acc h; exact h
  | cons l t ih =>
    intro acc h
    rw [List.foldl_cons]
    apply ih
    simp only [dataStep]
    split
    · exact h
    · split
      · exact h
      · rw [if_neg (by simp)]
        simp only [List.map_append, List.length_append, List.map_cons, List.map_nil,
          List.length_cons, List.length_nil]
        rw [h]
        simp only [timeRamp, Nat.add_zero, List.range_succ, List.map_append, List.map_cons,
          List.map_nil]

theorem chain_le_timeRamp (rate : ℚ) (m : ℕ) (hq : 0 ≤ 1 / rate) :
    List.Chain' (· ≤ ·) (timeRamp rate m) := by
  apply List.Pairwise.chain'
  unfold timeRamp
  rw [List.pairwise_map]
  apply (List.pairwise_lt_range m).imp
  intro a b hab
  have hc : (a : ℚ) ≤ b := by exact_mod_cast le_of_lt hab
  exact mul_le_mul_of_nonneg_right hc hq

theorem parseDataRows_times_chain (lines : List String) (ds : ℕ) (rate : ℚ)
    (hrate : 0 < rate) :
    List.Chain' (· ≤ ·) ((parseDataRows lines ds rate (-1)).1.map (fun p => p.time)) := by
  unfold parseDataRows
  rw [dataStep_fold_times rate (lines.drop ds) ([], 0) (by simp [timeRamp])]
  exact chain_le_timeRamp rate _ (le_of_lt (by positivity))

/-- C7 (amended): timestamps are monotonically non-decreasing whenever
the parser detects **no** time column (they are then synthesized as
`index / samplingRate`) and the sampling rate is positive (the parsed
value, or the default 1000; a zero or unparsable rate header produces
non-finite JS timestamps, outside this model).  When a time column *is*
detected, timestamps are copied verbatim from the file and need not be
monotone (counterexample above). -/
theorem parse_times_monotone_without_time_column (text : String)
    (hcol : detectTimeColumn text = -1)
    (hrate : 0 < samplingRateHzOf (splitLines text)) :
    List.Chain' (· ≤ ·) ((parseOscilloscopeCsv text).1.map (fun p => p.time)) := by
  simp only [detectTimeColumn] at hcol
  simp only [parseOscilloscopeCsv]
  rw [hcol]
  exact parseDataRows_times_chain _ _ _ hrate

theorem parse_times_monotone_without_time_column_witness :
    detectTimeColumn "0.5,1\n0.4,2\n" = -1 ∧
    0 < samplingRateHzOf (splitLines "0.5,1\n0.4,2\n") ∧
    List.Chain' (· ≤ ·)
      ((parseOscilloscopeCsv "0.5,1\n0.4,2\n").1.map (fun p => p.time)) :=
  ⟨by with_unfolding_all decide, by with_unfolding_all decide,
   parse_times_monotone_without_time_column "0.5,1\n0.4,2\n"
     (by with_unfolding_all decide) (by with_unfolding_all decide)⟩
